import Mathlib

/-!
Verification development for the stochastic layout optimizer in
`umap/layouts.py` (kruus/umap fork of umap-learn).

Modelling conventions (shallow embedding):
* floating-point values are modelled as exact rationals (`ℚ`);
* NumPy arrays are lists; 2-D embeddings are lists of rows; in-place
  mutation is explicit state passing;
* `int(x)` on a float is truncation toward zero (`pyint`);
* the transcendental primitives used by the kernels (`pow` with a float
  exponent, `np.exp`, `np.sqrt`, `np.log`) are external numeric
  primitives and are kept abstract as a parameter record `RealOps`:
  every theorem below holds for an arbitrary interpretation of them;
* `tau_rand_int` lives in `umap/utils.py`, outside the sources under
  study. Modelled from the spec: an opaque caller-owned state advanced
  by a single "next integer" operation.  We model the state as a cursor
  into an arbitrary integer stream `rngStream : ℕ → ℤ`, advanced by one
  at each draw;
* the sequential euclidean kernel asserts
  `np.all(head_embedding == tail_embedding)` (layouts.py lines 385-388),
  and multi-epoch sequential runs only satisfy this when both names
  alias one storage; the kernel model therefore works on a single
  embedding array, while a separate checked entry point models the
  asserts on a (head, tail) pair.
-/

namespace UmapLayouts

/-- Python and numba `int()` conversion of a float value: truncation
toward zero. -/
def pyint (q : ℚ) : ℤ :=
  if q < 0 then -(⌊-q⌋) else ⌊q⌋

/-- Abstract interface for the transcendental float operations used by
the kernels: C `pow` on floats (used with float exponents `b`, `b-1`,
`2*b`, `-1`), `np.exp`, `np.sqrt`, `np.log`.  They are supplied by the
numerics library, not by `layouts.py`; every claim proved below holds
for an arbitrary interpretation. -/
structure RealOps where
  rpow : ℚ → ℚ → ℚ
  exp : ℚ → ℚ
  sqrt : ℚ → ℚ
  log : ℚ → ℚ

/-- A trivial interpretation of the transcendental primitives, used only
to build concrete witness configurations. -/
def trivOps : RealOps :=
  { rpow := fun _ _ => 1, exp := fun _ => 1, sqrt := fun _ => 1, log := fun _ => 1 }

/-- Model of `clip` (layouts.py lines 11-30): clamp a value into
`[-4.0, 4.0]`. -/
def clip (val : ℚ) : ℚ :=
  if val > 4 then 4 else if val < -4 then -4 else val

/-- Model of `rdist` (lines 41-71): reduced (squared euclidean) distance,
accumulated over the dimensions of the first argument. -/
def rdist (x y : List ℚ) : ℚ :=
  (List.range x.length).foldl
    (fun result d =>
      result + (x.getD d 0 - y.getD d 0) * (x.getD d 0 - y.getD d 0)) 0

/-- Read entry `d` of row `i` of a 2-D array modelled as a list of rows. -/
def eget (e : List (List ℚ)) (i d : ℕ) : ℚ :=
  (e.getD i []).getD d 0

/-- Write entry `d` of row `i` of a 2-D array (an in-place NumPy write;
`List.set` drops out-of-range writes). -/
def eset (e : List (List ℚ)) (i d : ℕ) (v : ℚ) : List (List ℚ) :=
  e.set i ((e.getD i []).set d v)

/-- The constraint hook slots handed to the euclidean kernel
(`wrap_idx_pt`, `wrap_idx_grad`, `wrap_pt`, `wrap_grad` in the source).
A hook mutates the vector it is given (or the gradient) in place; the
model returns the mutated vector. -/
structure Hooks where
  idxPt : Option (ℕ → List ℚ → List ℚ) := none
  idxGrad : Option (ℕ → List ℚ → List ℚ → List ℚ) := none
  pt : Option (List ℚ → List ℚ) := none
  grad : Option (List ℚ → List ℚ → List ℚ) := none

/-- `_grad_mods = wrap_idx_grad is not None or wrap_grad is not None`
(line 391). -/
def gradMods (h : Hooks) : Bool :=
  h.idxGrad.isSome || h.grad.isSome

/-- Apply the `idx_grad` hook if present (`wrap_idx_grad(i, pt, grad)`),
returning the mutated gradient. -/
def applyIdxGrad (h : Hooks) (i : ℕ) (pt g : List ℚ) : List ℚ :=
  match h.idxGrad with
  | some f => f i pt g
  | none => g

/-- Apply the `grad` hook if present (`wrap_grad(pt, grad)`). -/
def applyGradHook (h : Hooks) (pt g : List ℚ) : List ℚ :=
  match h.grad with
  | some f => f pt g
  | none => g

/-- Apply the `idx_pt` hook if present to row `i` (`wrap_idx_pt(i, pt)`
mutates the row view in place). -/
def applyIdxPt (h : Hooks) (e : List (List ℚ)) (i : ℕ) : List (List ℚ) :=
  match h.idxPt with
  | some f => e.set i (f i (e.getD i []))
  | none => e

/-- Apply the `pt` hook if present to row `i` (`wrap_pt(pt)`). -/
def applyPtHook (h : Hooks) (e : List (List ℚ)) (i : ℕ) : List (List ℚ) :=
  match h.pt with
  | some f => e.set i (f (e.getD i []))
  | none => e

/-- Per-epoch densMAP data threaded into the kernel (`dens_*` arguments
of `_optimize_layout_euclidean_single_epoch`). -/
structure DensArgs where
  phiSum : List ℚ
  reSum : List ℚ
  reCov : ℚ
  reStd : ℚ
  reMean : ℚ
  lam : ℚ
  R : List ℚ
  mu : List ℚ
  muTot : ℚ

/-- The densMAP gradient correction coefficient (lines 415-450). -/
def grad_cor_coeff (ops : RealOps) (a b : ℚ) (nVertices : ℕ) (D : DensArgs)
    (i j k : ℕ) (distSquared : ℚ) : ℚ :=
  let phi := 1 / (1 + a * ops.rpow distSquared b)
  let dphiTerm :=
    a * b * ops.rpow distSquared (b - 1) / (1 + a * ops.rpow distSquared b)
  let qJk := phi / D.phiSum.getD k 0
  let qKj := phi / D.phiSum.getD j 0
  let drk := qJk * ((1 - b * (1 - phi)) / ops.exp (D.reSum.getD k 0) + dphiTerm)
  let drj := qKj * ((1 - b * (1 - phi)) / ops.exp (D.reSum.getD j 0) + dphiTerm)
  let reStdSq := D.reStd * D.reStd
  let weightK := D.R.getD k 0 - D.reCov * (D.reSum.getD k 0 - D.reMean) / reStdSq
  let weightJ := D.R.getD j 0 - D.reCov * (D.reSum.getD j 0 - D.reMean) / reStdSq
  D.lam * D.muTot * (weightK * drk + weightJ * drj) / (D.mu.getD i 0 * D.reStd)
    / (nVertices : ℚ)

/-- Attractive gradient coefficient (lines 409-413):
`-2ab·d^(b-1)/(a·d^b+1)` if `d>0` else `0`. -/
def attr_grad_coeff (ops : RealOps) (a b distSquared : ℚ) : ℚ :=
  if distSquared > 0 then
    -2 * a * b * ops.rpow distSquared (b - 1) / (a * ops.rpow distSquared b + 1)
  else 0

/-- Negative-sample gradient coefficient (lines 524-528):
`2·gamma·b/((0.001+d)(a·d^b+1))`. -/
def neg_grad_coeff (ops : RealOps) (a b gamma distSquared : ℚ) : ℚ :=
  2 * gamma * b / ((1 / 1000 + distSquared) * (a * ops.rpow distSquared b + 1))

/-- Static arguments of one euclidean single-epoch kernel call. -/
structure EucKernelArgs where
  head : List ℕ
  tail : List ℕ
  nVertices : ℕ
  eps : List ℚ
  a : ℚ
  b : ℚ
  gamma : ℚ
  dim : ℕ
  moveOther : Bool
  epns : List ℚ
  hooks : Hooks
  densFlag : Bool
  dens : DensArgs
  ops : RealOps
  rngStream : ℕ → ℤ

/-- The state mutated by the euclidean kernel: the (aliased) embedding,
the two per-edge schedule arrays and the PRNG cursor. -/
structure EucState where
  emb : List (List ℚ)
  eons : List ℚ
  eonns : List ℚ
  rng : ℕ

/-- Post-constraint application loop (lines 493-494, 604-606, 786-787):
`pt[d] += alpha * clip(grad[d])` for every `d < dim`. -/
def applyClipGrad (dim : ℕ) (alpha : ℚ) (e : List (List ℚ)) (j : ℕ)
    (g : List ℚ) : List (List ℚ) :=
  (List.range dim).foldl
    (fun e2 d => eset e2 j d (eget e2 j d + alpha * clip (g.getD d 0))) e

/-- Interleaved two-row post-constraint application loop
(lines 467-469): per dimension, `current[d] += alpha*clip(grad[d])` then
`other[d] += alpha*clip(other_grad[d])`. -/
def applyClipGrad2 (dim : ℕ) (alpha : ℚ) (e : List (List ℚ)) (j : ℕ)
    (g : List ℚ) (k : ℕ) (og : List ℚ) : List (List ℚ) :=
  (List.range dim).foldl
    (fun e2 d =>
      let e3 := eset e2 j d (eget e2 j d + alpha * clip (g.getD d 0))
      eset e3 k d (eget e3 k d + alpha * clip (og.getD d 0))) e

/-- Attractive update without gradient hooks, `move_other` on
(lines 471-474): `delta = alpha*clip(gc*(cur[d]-oth[d]))`;
`cur[d] += delta; oth[d] -= delta`, reading live values. -/
def attrMoveLoop (dim : ℕ) (alpha gc : ℚ) (e : List (List ℚ))
    (j k : ℕ) : List (List ℚ) :=
  (List.range dim).foldl
    (fun e2 d =>
      let delta := alpha * clip (gc * (eget e2 j d - eget e2 k d))
      let e3 := eset e2 j d (eget e2 j d + delta)
      eset e3 k d (eget e3 k d - delta)) e

/-- Single-row update without gradient hooks (lines 496-497, 609-610):
`cur[d] += alpha * clip(gc * (cur[d]-oth[d]))`. -/
def attrLoop (dim : ℕ) (alpha gc : ℚ) (e : List (List ℚ))
    (j k : ℕ) : List (List ℚ) :=
  (List.range dim).foldl
    (fun e2 d =>
      eset e2 j d (eget e2 j d + alpha * clip (gc * (eget e2 j d - eget e2 k d)))) e

/-- Fixed-magnitude repulsion of overlapping points without hooks
(lines 612-613): `cur[d] += alpha * 4.0` (note: no clip). -/
def pushLoop (dim : ℕ) (alpha : ℚ) (e : List (List ℚ)) (j : ℕ) :
    List (List ℚ) :=
  (List.range dim).foldl (fun e2 d => eset e2 j d (eget e2 j d + alpha * 4)) e

/-- The embedding effect of a firing edge's attractive update in the
euclidean kernel (lines 404-502; the parallel variant, lines 710-823, has
the identical arithmetic).  `i` is the edge index; head and tail
embeddings alias `e`. -/
def attractiveUpd (P : EucKernelArgs) (alpha : ℚ) (i : ℕ)
    (e : List (List ℚ)) : List (List ℚ) :=
  let j := P.head.getD i 0
  let k := P.tail.getD i 0
  let current := e.getD j []
  let other := e.getD k []
  let distSquared := rdist current other
  let gc0 := attr_grad_coeff P.ops P.a P.b distSquared
  let gc :=
    if P.densFlag then
      gc0 + 2 * grad_cor_coeff P.ops P.a P.b P.nVertices P.dens i j k distSquared
    else gc0
  if P.moveOther then
    let e2 :=
      if gradMods P.hooks then
        let g0 := (List.range P.dim).map (fun d => gc * (eget e j d - eget e k d))
        let og0 := g0.map (fun x => -x)
        let g1 := applyIdxGrad P.hooks j current g0
        let og1 := applyIdxGrad P.hooks k other og0
        let g2 := applyGradHook P.hooks current g1
        let og2 := applyGradHook P.hooks other og1
        applyClipGrad2 P.dim alpha e j g2 k og2
      else
        attrMoveLoop P.dim alpha gc e j k
    applyPtHook P.hooks (applyPtHook P.hooks
      (applyIdxPt P.hooks (applyIdxPt P.hooks e2 j) k) j) k
  else
    let e2 :=
      if gradMods P.hooks then
        let g0 := (List.range P.dim).map (fun d => gc * (eget e j d - eget e k d))
        let g1 := applyIdxGrad P.hooks j current g0
        let g2 := applyGradHook P.hooks current g1
        applyClipGrad P.dim alpha e j g2
      else
        attrLoop P.dim alpha gc e j k
    applyPtHook P.hooks (applyIdxPt P.hooks e2 j) j

/-- Embedding effect of one negative sample once the coefficient branch
has been taken (lines 592-621, the live branch: the symmetric
`move_other` negative update is dead code under `if False:`). -/
def negApply (P : EucKernelArgs) (alpha : ℚ) (j kp : ℕ) (gc : ℚ)
    (e : List (List ℚ)) : List (List ℚ) :=
  let e2 :=
    if gradMods P.hooks then
      let g0 :=
        if gc > 0 then
          (List.range P.dim).map (fun d => gc * (eget e j d - eget e kp d))
        else (List.range P.dim).map (fun _ => (4 : ℚ))
      let g1 := applyIdxGrad P.hooks j (e.getD j []) g0
      let g2 := applyGradHook P.hooks (e.getD j []) g1
      applyClipGrad P.dim alpha e j g2
    else
      if gc > 0 then attrLoop P.dim alpha gc e j kp
      else pushLoop P.dim alpha e j
  applyPtHook P.hooks (applyIdxPt P.hooks e2 j) j

/-- One drawn negative sample against partner vertex `kp`
(lines 518-621): skipped entirely (`continue`) when the distance is zero
and `j == kp`.  (`move_other` does not occur: the symmetric branch in the
source is `if False:`.) -/
def negSampleUpd (P : EucKernelArgs) (alpha : ℚ) (j kp : ℕ)
    (e : List (List ℚ)) : List (List ℚ) :=
  let current := e.getD j []
  let other := e.getD kp []
  let distSquared := rdist current other
  if distSquared > 0 then
    negApply P alpha j kp (neg_grad_coeff P.ops P.a P.b P.gamma distSquared) e
  else if j = kp then e
  else negApply P alpha j kp 0 e

/-- The negative-sampling loop for one firing edge (lines 517-621): draw
`count` partners from the random stream, updating the embedding and
advancing the PRNG cursor. -/
def negLoop (P : EucKernelArgs) (alpha : ℚ) (j : ℕ) (count : ℕ)
    (e : List (List ℚ)) (rng : ℕ) : List (List ℚ) × ℕ :=
  (List.range count).foldl
    (fun er _ =>
      let kp := ((P.rngStream er.2).emod (P.nVertices : ℤ)).toNat
      (negSampleUpd P alpha j kp er.1, er.2 + 1)) (e, rng)

/-- Processing of one edge by the sequential euclidean kernel
(lines 400-628).  When the edge fires: the attractive update runs;
when `move_other` is set, line 484 additionally bumps
`epoch_of_next_sample[tail[i]]` (before the line 504 bump of entry `i`);
then `epoch_of_next_sample[i] += epochs_per_sample[i]`; negative
sampling runs only when `n_neg_samples > 0` (lines 511-512 `continue`),
and only then is `epoch_of_next_negative_sample[i]` incremented. -/
def edgeStepSeq (P : EucKernelArgs) (alpha : ℚ) (n : ℕ) (s : EucState)
    (i : ℕ) : EucState :=
  if s.eons.getD i 0 ≤ (n : ℚ) then
    let j := P.head.getD i 0
    let k := P.tail.getD i 0
    let emb1 := attractiveUpd P alpha i s.emb
    let eons1 :=
      if P.moveOther then s.eons.set k (s.eons.getD k 0 + P.eps.getD k 0)
      else s.eons
    let eons2 := eons1.set i (eons1.getD i 0 + P.eps.getD i 0)
    let nneg := pyint (((n : ℚ) - s.eonns.getD i 0) / P.epns.getD i 0)
    if nneg ≤ 0 then
      { emb := emb1, eons := eons2, eonns := s.eonns, rng := s.rng }
    else
      let er := negLoop P alpha j nneg.toNat emb1 s.rng
      { emb := er.1, eons := eons2,
        eonns := s.eonns.set i (s.eonns.getD i 0 + (nneg : ℚ) * P.epns.getD i 0),
        rng := er.2 }
  else s

/-- Processing of one edge by the parallel euclidean kernel
(lines 694-938), sequentialized.  The arithmetic is identical to the
sequential kernel except that the `move_other` bump of
`epoch_of_next_sample[tail[i]]` (line 484) is absent; each edge index
touches only its own schedule entries, so the schedule effect does not
depend on the thread interleaving (embedding races are tolerated by the
source and are not modelled). -/
def edgeStepPara (P : EucKernelArgs) (alpha : ℚ) (n : ℕ) (s : EucState)
    (i : ℕ) : EucState :=
  if s.eons.getD i 0 ≤ (n : ℚ) then
    let j := P.head.getD i 0
    let emb1 := attractiveUpd P alpha i s.emb
    let eons2 := s.eons.set i (s.eons.getD i 0 + P.eps.getD i 0)
    let nneg := pyint (((n : ℚ) - s.eonns.getD i 0) / P.epns.getD i 0)
    if nneg ≤ 0 then
      { emb := emb1, eons := eons2, eonns := s.eonns, rng := s.rng }
    else
      let er := negLoop P alpha j nneg.toNat emb1 s.rng
      { emb := er.1, eons := eons2,
        eonns := s.eonns.set i (s.eonns.getD i 0 + (nneg : ℚ) * P.epns.getD i 0),
        rng := er.2 }
  else s

/-- `_optimize_layout_euclidean_single_epoch` (lines 352-630), on the
aliased embedding: one pass over all edges in array order. -/
def optimize_layout_euclidean_single_epoch (P : EucKernelArgs) (alpha : ℚ)
    (n : ℕ) (s : EucState) : EucState :=
  (List.range P.eps.length).foldl (edgeStepSeq P alpha n) s

/-- `_optimize_layout_euclidean_single_epoch_para` (lines 640-938),
sequentialized: one pass over all edges. -/
def optimize_layout_euclidean_single_epoch_para (P : EucKernelArgs)
    (alpha : ℚ) (n : ℕ) (s : EucState) : EucState :=
  (List.range P.eps.length).foldl (edgeStepPara P alpha n) s

/-- The Python exceptions the driver can raise. -/
inductive PyError
  | assertionError
  | valueError (msg : String)
  | nameError (msg : String)
  | typeError (msg : String)
deriving DecidableEq

/-- The entry asserts of both euclidean kernels (lines 385-388 and
673-674): `assert head_embedding.shape == tail_embedding.shape` and
`assert np.all(head_embedding == tail_embedding)`. -/
def euclideanKernelAsserts (headE tailE : List (List ℚ)) : Bool :=
  (headE.length == tailE.length
      && headE.map List.length == tailE.map List.length)
    && headE == tailE

/-- The sequential euclidean kernel as invoked on a `(head, tail)`
embedding pair: the entry asserts run first; if they pass, both names
refer to equal data and the aliased epoch body runs. -/
def opt_euclidean_checked (P : EucKernelArgs) (alpha : ℚ) (n : ℕ)
    (headE tailE : List (List ℚ)) (eons eonns : List ℚ) (rng : ℕ) :
    Except PyError EucState :=
  if euclideanKernelAsserts headE tailE then
    .ok (optimize_layout_euclidean_single_epoch P alpha n
      { emb := headE, eons := eons, eonns := eonns, rng := rng })
  else .error .assertionError

/-- The parallel euclidean kernel as invoked on a `(head, tail)` pair,
with the same entry asserts (lines 673-674). -/
def opt_euclidean_para_checked (P : EucKernelArgs) (alpha : ℚ) (n : ℕ)
    (headE tailE : List (List ℚ)) (eons eonns : List ℚ) (rng : ℕ) :
    Except PyError EucState :=
  if euclideanKernelAsserts headE tailE then
    .ok (optimize_layout_euclidean_single_epoch_para P alpha n
      { emb := headE, eons := eons, eonns := eonns, rng := rng })
  else .error .assertionError

/-- Modelled from the spec: `con.pinindexed_grad` (umap/constraints.py is
not among the sources under study).  Spec 4.6: a 1-D pin mask is "built
into an `idx_grad` hook that zeroes the gradient at pinned indices".
The point argument is part of the hook contract and is not consulted. -/
def pinindexed_grad (fixedPosIdxs : List ℕ) (idx : ℕ) (pt grad : List ℚ) :
    List ℚ :=
  if idx ∈ fixedPosIdxs then grad.map (fun _ => 0) else grad

/-- Modelled from the spec: `con.freeinf_grad` (umap/constraints.py is not
among the sources under study).  Spec 4.6: the 2-D mask becomes a sentinel
array in which pinned dimensions carry their original coordinate and free
dimensions carry an "unconstrained" marker (`np.inf` in the source,
`none` here); the hook forces the gradient to zero at pinned coordinates
and leaves free coordinates untouched. -/
def freeinf_grad (freeinfArg : List (List (Option ℚ))) (idx : ℕ)
    (pt grad : List ℚ) : List ℚ :=
  (List.range grad.length).map (fun d =>
    match (freeinfArg.getD idx []).getD d none with
    | some _ => 0
    | none => grad.getD d 0)

/-- One entry of a constraints dictionary passed as `pin_mask`.  Python
dict iteration visits entries in insertion order; recognized keys are
`idx_pt` and `idx_grad`; any other key is carried by name. -/
inductive DictEntry
  | idxPtEntry (f : ℕ → List ℚ → List ℚ)
  | idxGradEntry (f : ℕ → List ℚ → List ℚ → List ℚ)
  | otherEntry (key : String)

/-- The `pin_mask` argument of `optimize_layout_euclidean`: `None`, a
constraints dictionary, or an ndarray of rank 1, 2, or other (for other
ranks only the rank is consulted by the shape dispatch). -/
inductive PinMask
  | noMask
  | dict (entries : List DictEntry)
  | array1d (mask : List ℚ)
  | array2d (mask : List (List ℚ))
  | arrayNd (ndim : ℕ)

/-- Pin-mask / constraints processing of `optimize_layout_euclidean`
(lines 1126-1232), producing the `wrap_idx_pt` and `wrap_idx_grad`
slots.  A `None` mask becomes an empty dict (lines 1126-1127).  An
unrecognized dictionary key reaches
`print(" Allowed constraint keys:", recognized)` (line 1151), where the
name `recognized` is undefined in the module: a `NameError` is raised.
A 1-D array mask must match the point count (assert, line 1158); the
fixed indices are those with weight exactly `0.0` (lines 1161-1166), fed
to `con.pinindexed_grad`.  A 2-D mask must match the embedding shape
(assert, line 1175); its zero entries keep the embedding coordinate and
the rest become the sentinel (line 1184), fed to `con.freeinf_grad`.
Any other rank raises `ValueError` (line 1213). -/
def processPinMask (pm : PinMask) (headEmbedding : List (List ℚ)) :
    Except PyError
      (Option (ℕ → List ℚ → List ℚ) × Option (ℕ → List ℚ → List ℚ → List ℚ)) :=
  match pm with
  | .noMask => .ok (none, none)
  | .dict entries =>
    entries.foldl
      (fun acc ent =>
        match acc with
        | .error e => .error e
        | .ok hp =>
          match ent with
          | .idxPtEntry f => .ok (some f, hp.2)
          | .idxGradEntry f => .ok (hp.1, some f)
          | .otherEntry _ => .error (.nameError "recognized"))
      (.ok (none, none))
  | .array1d mask =>
    if mask.length = headEmbedding.length then
      let fixedPosIdxs :=
        (List.range mask.length).filter (fun i => mask.getD i 0 = 0)
      .ok (none, some (pinindexed_grad fixedPosIdxs))
    else .error .assertionError
  | .array2d mask =>
    if mask.length = headEmbedding.length
        ∧ mask.map List.length = headEmbedding.map List.length then
      let freeinfArg :=
        mask.zipWith
          (fun mrow erow =>
            mrow.zipWith (fun mv ev => if mv = 0 then some ev else none) erow)
          headEmbedding
      .ok (none, some (freeinf_grad freeinfArg))
    else .error .assertionError
  | .arrayNd _ =>
    .error (.valueError "pin_mask data_constrain must be a 1 or 2-dim array")

/-- The `output_constrain` dictionary (lines 1234-1245): at most one
function per trigger key. -/
structure OutputConstrain where
  pt : Option (List ℚ → List ℚ) := none
  grad : Option (List ℚ → List ℚ → List ℚ) := none
  epochPt : Option (List (List ℚ) → List (List ℚ)) := none
  finalPt : Option (List (List ℚ) → List (List ℚ)) := none

/-- The densMAP parameter bundle `densmap_kwds`. -/
structure DensKwds where
  lam : ℚ := 0
  frac : ℚ := 0
  varShift : ℚ := 0
  muSum : List ℚ := []
  mu : List ℚ := []
  R : List ℚ := []

/-- `np.mean` of a float array. -/
def qmean (l : List ℚ) : ℚ := l.sum / (l.length : ℚ)

/-- `np.var`: mean of squared deviations from the mean. -/
def qvar (l : List ℚ) : ℚ :=
  qmean (l.map (fun x => (x - qmean l) * (x - qmean l)))

/-- `np.dot` of two float arrays. -/
def qdot (x y : List ℚ) : ℚ := (x.zipWith (fun u v => u * v) y).sum

/-- `_optimize_layout_euclidean_densmap_epoch_init` (lines 950-981):
zero `re_sum` and `phi_sum`, accumulate the curve values over all edges
of the (aliased) embedding, then set
`re_sum[i] = log(1e-8 + re_sum[i]/phi_sum[i])`.  Returns
`(re_sum, phi_sum)`. -/
def optimize_layout_euclidean_densmap_epoch_init (ops : RealOps)
    (e : List (List ℚ)) (head tail : List ℕ) (a b : ℚ) (nVertices : ℕ) :
    List ℚ × List ℚ :=
  let z : List ℚ := List.replicate nVertices 0
  let rp :=
    (List.range head.length).foldl
      (fun (rp : List ℚ × List ℚ) i =>
        let j := head.getD i 0
        let k := tail.getD i 0
        let distSquared := rdist (e.getD j []) (e.getD k [])
        let phi := 1 / (1 + a * ops.rpow distSquared b)
        let re1 := rp.1.set j (rp.1.getD j 0 + phi * distSquared)
        let re2 := re1.set k (re1.getD k 0 + phi * distSquared)
        let ph1 := rp.2.set j (rp.2.getD j 0 + phi)
        let ph2 := ph1.set k (ph1.getD k 0 + phi)
        (re2, ph2))
      (z, z)
  let reSum :=
    (List.range rp.1.length).map
      (fun i => ops.log (1 / 100000000 + rp.1.getD i 0 / rp.2.getD i 0))
  (reSum, rp.2)

/-- The arguments of `optimize_layout_euclidean` (lines 985-1007).  In
sanctioned sequential multi-epoch runs `tail_embedding` aliases
`head_embedding` (the kernel asserts their equality at every epoch), so
one embedding field is carried and handed to the kernel under both
names. -/
structure EucDriverArgs where
  headEmbedding : List (List ℚ)
  head : List ℕ
  tail : List ℕ
  nEpochs : ℕ
  nVertices : ℕ
  eps : List ℚ
  a : ℚ
  b : ℚ
  gamma : ℚ := 1
  initialAlpha : ℚ := 1
  negativeSampleRate : ℚ := 5
  parallel : Bool := false
  densmap : Bool := false
  densmapKwds : DensKwds := {}
  moveOther : Bool := false
  outputConstrain : OutputConstrain := {}
  pinMask : PinMask := .noMask
  ops : RealOps := trivOps
  rngStream : ℕ → ℤ := fun _ => 0

/-- The learning-rate variable of the epoch loop: `alpha` starts at
`initial_alpha` (line 1115) and the body of epoch `n` ends with
`alpha = initial_alpha * (1.0 - (float(n) / float(n_epochs)))`
(line 1640); `alphaAt ia E n` is therefore the value of `alpha` in force
while epoch `n` runs. -/
def alphaAt (initialAlpha : ℚ) (nEpochs : ℕ) : ℕ → ℚ
  | 0 => initialAlpha
  | n + 1 => initialAlpha * (1 - (n : ℚ) / (nEpochs : ℚ))

/-- The `densmap_flag` computed for epoch `n` (lines 1321-1325). -/
def densmapFlag (A : EucDriverArgs) (n : ℕ) : Bool :=
  A.densmap && decide (0 < A.densmapKwds.lam)
    && decide ((1 : ℚ) - A.densmapKwds.frac < ((n : ℚ) + 1) / (A.nEpochs : ℚ))

/-- The kernel argument block assembled by the driver for epoch `n`
(lines 1114-1120, 1287-1316, 1327-1377).  When the densmap flag is off,
the kernel never reads the dens fields; the zero placeholders correspond
to lines 1302-1307 and 1314-1316. -/
def eucEpochArgs (A : EucDriverArgs)
    (hookPair :
      Option (ℕ → List ℚ → List ℚ) × Option (ℕ → List ℚ → List ℚ → List ℚ))
    (n : ℕ) (e : List (List ℚ)) : EucKernelArgs :=
  let flag := densmapFlag A n
  let rp :=
    if flag then
      optimize_layout_euclidean_densmap_epoch_init A.ops e A.head A.tail
        A.a A.b A.nVertices
    else (List.replicate 1 0, List.replicate 1 0)
  { head := A.head, tail := A.tail, nVertices := A.nVertices, eps := A.eps,
    a := A.a, b := A.b, gamma := A.gamma,
    dim := (A.headEmbedding.getD 0 []).length,
    moveOther := A.moveOther,
    epns := A.eps.map (fun x => x / A.negativeSampleRate),
    hooks :=
      { idxPt := hookPair.1, idxGrad := hookPair.2,
        pt := A.outputConstrain.pt, grad := A.outputConstrain.grad },
    densFlag := flag,
    dens :=
      { phiSum := rp.2, reSum := rp.1,
        reCov := if flag then qdot rp.1 A.densmapKwds.R / ((A.nVertices : ℚ) - 1) else 0,
        reStd := if flag then A.ops.sqrt (qvar rp.1 + A.densmapKwds.varShift) else 0,
        reMean := if flag then qmean rp.1 else 0,
        lam := if A.densmap then A.densmapKwds.lam else 0,
        R := if A.densmap then A.densmapKwds.R else List.replicate 1 0,
        mu := if A.densmap then A.densmapKwds.mu else List.replicate 1 0,
        muTot := if A.densmap then A.densmapKwds.muSum.sum / 2 else 0 },
    ops := A.ops, rngStream := A.rngStream }

/-- One epoch of the driver loop body (lines 1319-1377): assemble the
kernel arguments (recomputing densmap statistics when flagged) and call
the selected kernel through its entry asserts, with both embedding names
bound to the same storage. -/
def eucDriverEpoch (A : EucDriverArgs)
    (hookPair :
      Option (ℕ → List ℚ → List ℚ) × Option (ℕ → List ℚ → List ℚ → List ℚ))
    (n : ℕ) (s : EucState) : Except PyError EucState :=
  let P := eucEpochArgs A hookPair n s.emb
  if A.parallel then
    opt_euclidean_para_checked P (alphaAt A.initialAlpha A.nEpochs n) n
      s.emb s.emb s.eons s.eonns s.rng
  else
    opt_euclidean_checked P (alphaAt A.initialAlpha A.nEpochs n) n
      s.emb s.emb s.eons s.eonns s.rng

/-- The per-epoch output-constraint application (lines 1379-1381): the
guard tests `outconstrain_epoch_pt`, but the call is
`outconstrain_final_pt(head_embedding)`; with no `final_pt` registered,
`None` is called and `TypeError` is raised. -/
def epochPtApply (oc : OutputConstrain) (s : EucState) :
    Except PyError EucState :=
  match oc.epochPt with
  | none => .ok s
  | some _ =>
    match oc.finalPt with
    | some f => .ok { s with emb := f s.emb }
    | none => .error (.typeError "NoneType object is not callable")

/-- The epoch loop of `optimize_layout_euclidean` (lines 1319-1643):
`count` epochs remain and `n` is the current epoch number. -/
def eucDriverLoop (A : EucDriverArgs)
    (hookPair :
      Option (ℕ → List ℚ → List ℚ) × Option (ℕ → List ℚ → List ℚ → List ℚ)) :
    ℕ → ℕ → EucState → Except PyError EucState
  | 0, _, s => .ok s
  | count + 1, n, s =>
    match eucDriverEpoch A hookPair n s with
    | .error e => .error e
    | .ok s1 =>
      match epochPtApply A.outputConstrain s1 with
      | .error e => .error e
      | .ok s2 => eucDriverLoop A hookPair count (n + 1) s2

/-- `optimize_layout_euclidean` (lines 985-1650): build the schedule
arrays (1117-1119), process the pin mask / constraints (1126-1232), run
the epoch loop, apply `final_pt` if registered (1645-1646, also when
`n_epochs = 0`), and return the mutated head embedding. -/
def optimize_layout_euclidean (A : EucDriverArgs) :
    Except PyError (List (List ℚ)) :=
  match processPinMask A.pinMask A.headEmbedding with
  | .error e => .error e
  | .ok hookPair =>
    let s0 : EucState :=
      { emb := A.headEmbedding, eons := A.eps,
        eonns := A.eps.map (fun x => x / A.negativeSampleRate), rng := 0 }
    match eucDriverLoop A hookPair A.nEpochs 0 s0 with
    | .error e => .error e
    | .ok s =>
      match A.outputConstrain.finalPt with
      | some f => .ok (f s.emb)
      | none => .ok s.emb

/-- The embedding effect of the per-epoch output-constraint block in a
run that does not abort: when both `epoch_pt` and `final_pt` are
registered, `outconstrain_final_pt` is applied (lines 1380-1381);
otherwise the embedding is untouched. -/
def epochPtMap (oc : OutputConstrain) (e : List (List ℚ)) : List (List ℚ) :=
  match oc.epochPt, oc.finalPt with
  | some _, some f => f e
  | _, _ => e

/-- The epoch-indexed state trajectory of an `optimize_layout_euclidean`
run that does not abort (the `epoch_pt` slot empty, or `final_pt`
present): state before epoch `n`.  This is the iteration carried out by
`eucDriverLoop`, exposed as a pure function of the epoch number so that
per-epoch observations can be stated. -/
def eucRunStates (A : EucDriverArgs)
    (hookPair :
      Option (ℕ → List ℚ → List ℚ) × Option (ℕ → List ℚ → List ℚ → List ℚ)) :
    ℕ → EucState
  | 0 =>
    { emb := A.headEmbedding, eons := A.eps,
      eonns := A.eps.map (fun x => x / A.negativeSampleRate), rng := 0 }
  | n + 1 =>
    let s := eucRunStates A hookPair n
    let P := eucEpochArgs A hookPair n s.emb
    let s1 :=
      if A.parallel then
        optimize_layout_euclidean_single_epoch_para P
          (alphaAt A.initialAlpha A.nEpochs n) n s
      else
        optimize_layout_euclidean_single_epoch P
          (alphaAt A.initialAlpha A.nEpochs n) n s
    { s1 with emb := epochPtMap A.outputConstrain s1.emb }

/-- Static arguments of the generic-metric kernel
(`_optimize_layout_generic_single_epoch`, lines 1653-1732).  The
output-space metric callback is an external collaborator:
`(point_a, point_b) -> (distance, gradient_vector)`, with any
`output_metric_kwds` already bound into the function. -/
structure GenArgs where
  head : List ℕ
  tail : List ℕ
  nVertices : ℕ
  eps : List ℚ
  epns : List ℚ
  a : ℚ
  b : ℚ
  gamma : ℚ
  dim : ℕ
  moveOther : Bool
  metric : List ℚ → List ℚ → ℚ × List ℚ
  ops : RealOps
  rngStream : ℕ → ℤ

/-- Mutable state of the generic and inverse kernels: head and tail
embeddings (neither kernel asserts aliasing; writes to `current` land in
the head embedding and `move_other` writes to `other` land in the tail
embedding), the schedule arrays and the PRNG cursor. -/
structure GenState where
  headEmb : List (List ℚ)
  tailEmb : List (List ℚ)
  eons : List ℚ
  eonns : List ℚ
  rng : ℕ

/-- Attractive per-dimension loop of the generic kernel
(lines 1693-1699): `current[d] += clip(gc*grad[d])*alpha`, and under
`move_other` also `other[d] += clip(gc*rev_grad[d])*alpha`. -/
def genAttrLoop (dim : ℕ) (alpha gc : ℚ) (gv rgv : List ℚ)
    (moveOther : Bool) (hE tE : List (List ℚ)) (j k : ℕ) :
    List (List ℚ) × List (List ℚ) :=
  (List.range dim).foldl
    (fun ht d =>
      let h1 := eset ht.1 j d (eget ht.1 j d + clip (gc * gv.getD d 0) * alpha)
      if moveOther then
        (h1, eset ht.2 k d (eget ht.2 k d + clip (gc * rgv.getD d 0) * alpha))
      else (h1, ht.2))
    (hE, tE)

/-- Single-row negative per-dimension loop of the generic kernel
(lines 1725-1727). -/
def genNegApplyLoop (dim : ℕ) (alpha gc : ℚ) (gv : List ℚ)
    (hE : List (List ℚ)) (j : ℕ) : List (List ℚ) :=
  (List.range dim).foldl
    (fun h d => eset h j d (eget h j d + clip (gc * gv.getD d 0) * alpha)) hE

/-- One negative sample of the generic kernel (lines 1707-1727):
`w_l = (1+a·dist^(2b))^(-1)` if `dist>0`, `continue` if `j == k`, else
`w_l = 1`; then `coeff = gamma·2b·w_l/(dist+1e-6)` moves only the
current (head) row. -/
def genNegStep (P : GenArgs) (alpha : ℚ) (j kp : ℕ)
    (hE tE : List (List ℚ)) : List (List ℚ) :=
  let dg := P.metric (hE.getD j []) (tE.getD kp [])
  let wl? : Option ℚ :=
    if dg.1 > 0 then some (P.ops.rpow (1 + P.a * P.ops.rpow dg.1 (2 * P.b)) (-1))
    else if j = kp then none
    else some 1
  match wl? with
  | none => hE
  | some wl =>
    genNegApplyLoop P.dim alpha (P.gamma * 2 * P.b * wl / (dg.1 + 1 / 1000000))
      dg.2 hE j

/-- The negative-sampling loop of the generic kernel (lines 1707-1727). -/
def genNegLoop (P : GenArgs) (alpha : ℚ) (j : ℕ) (count : ℕ)
    (hE tE : List (List ℚ)) (rng : ℕ) : List (List ℚ) × ℕ :=
  (List.range count).foldl
    (fun hr _ =>
      let kp := ((P.rngStream hr.2).emod (P.nVertices : ℤ)).toNat
      (genNegStep P alpha j kp hr.1 tE, hr.2 + 1))
    (hE, rng)

/-- Processing of one edge by the generic kernel (lines 1674-1731).
Unlike the euclidean kernels there is no `n_neg_samples <= 0` guard:
`epoch_of_next_negative_sample[i]` is incremented by
`n_neg_samples * epochs_per_negative_sample[i]` unconditionally on
firing (lines 1729-1731). -/
def genEdgeStep (P : GenArgs) (alpha : ℚ) (n : ℕ) (s : GenState) (i : ℕ) :
    GenState :=
  if s.eons.getD i 0 ≤ (n : ℚ) then
    let j := P.head.getD i 0
    let k := P.tail.getD i 0
    let current := s.headEmb.getD j []
    let other := s.tailEmb.getD k []
    let dg := P.metric current other
    let rdg := P.metric other current
    let wl :=
      if dg.1 > 0 then P.ops.rpow (1 + P.a * P.ops.rpow dg.1 (2 * P.b)) (-1)
      else 1
    let gc := 2 * P.b * (wl - 1) / (dg.1 + 1 / 1000000)
    let ht := genAttrLoop P.dim alpha gc dg.2 rdg.2 P.moveOther
      s.headEmb s.tailEmb j k
    let eons2 := s.eons.set i (s.eons.getD i 0 + P.eps.getD i 0)
    let nneg := pyint (((n : ℚ) - s.eonns.getD i 0) / P.epns.getD i 0)
    let hr := genNegLoop P alpha j nneg.toNat ht.1 ht.2 s.rng
    { headEmb := hr.1, tailEmb := ht.2, eons := eons2,
      eonns := s.eonns.set i (s.eonns.getD i 0 + (nneg : ℚ) * P.epns.getD i 0),
      rng := hr.2 }
  else s

/-- `_optimize_layout_generic_single_epoch` (lines 1653-1732): one pass
over all edges in array order. -/
def optimize_layout_generic_single_epoch (P : GenArgs) (alpha : ℚ) (n : ℕ)
    (s : GenState) : GenState :=
  (List.range P.eps.length).foldl (genEdgeStep P alpha n) s

/-- The epoch-indexed state trajectory of `optimize_layout_generic`
(lines 1735-1872): initialization
`epoch_of_next_sample = epochs_per_sample.copy()`,
`epoch_of_next_negative_sample = epochs_per_negative_sample.copy()`
(lines 1828-1832), then one kernel epoch per loop iteration with the
annealed learning rate. -/
def genRunStates (P : GenArgs) (initialAlpha : ℚ) (nEpochs : ℕ)
    (headEmb tailEmb : List (List ℚ)) : ℕ → GenState
  | 0 =>
    { headEmb := headEmb, tailEmb := tailEmb, eons := P.eps,
      eonns := P.epns, rng := 0 }
  | n + 1 =>
    optimize_layout_generic_single_epoch P (alphaAt initialAlpha nEpochs n) n
      (genRunStates P initialAlpha nEpochs headEmb tailEmb n)

/-- Static arguments of the inverse kernel
(`_optimize_layout_inverse_single_epoch`, lines 1875-1953). -/
structure InvArgs where
  head : List ℕ
  tail : List ℕ
  nVertices : ℕ
  eps : List ℚ
  epns : List ℚ
  weight : List ℚ
  sigmas : List ℚ
  rhos : List ℚ
  gamma : ℚ
  dim : ℕ
  moveOther : Bool
  metric : List ℚ → List ℚ → ℚ × List ℚ
  ops : RealOps
  rngStream : ℕ → ℤ

/-- Attractive per-dimension loop of the inverse kernel
(lines 1912-1917): `grad_d = clip(gc*grad[d])`;
`current[d] += grad_d*alpha`; under `move_other`
`other[d] += -grad_d*alpha`. -/
def invAttrLoop (dim : ℕ) (alpha gc : ℚ) (gv : List ℚ) (moveOther : Bool)
    (hE tE : List (List ℚ)) (j k : ℕ) :
    List (List ℚ) × List (List ℚ) :=
  (List.range dim).foldl
    (fun ht d =>
      let gd := clip (gc * gv.getD d 0)
      let h1 := eset ht.1 j d (eget ht.1 j d + gd * alpha)
      if moveOther then (h1, eset ht.2 k d (eget ht.2 k d + -gd * alpha))
      else (h1, ht.2))
    (hE, tE)

/-- One negative sample of the inverse kernel (lines 1925-1940): the
pseudo-weight `w_h = exp(-max(dist-rho[k], 1e-6)/(sigma[k]+1e-6))` and
`coeff = -gamma·((0-w_h)/((1-w_h)·sigma[k]+1e-6))` move only the current
(head) row; there is no zero-distance or `j == k` skip. -/
def invNegStep (P : InvArgs) (alpha : ℚ) (j kp : ℕ)
    (hE tE : List (List ℚ)) : List (List ℚ) :=
  let dg := P.metric (hE.getD j []) (tE.getD kp [])
  let wh := P.ops.exp
    (-(max (dg.1 - P.rhos.getD kp 0) (1 / 1000000))
      / (P.sigmas.getD kp 0 + 1 / 1000000))
  let gc := -P.gamma * ((0 - wh) / ((1 - wh) * P.sigmas.getD kp 0 + 1 / 1000000))
  (List.range P.dim).foldl
    (fun h d => eset h j d (eget h j d + clip (gc * dg.2.getD d 0) * alpha)) hE

/-- The negative-sampling loop of the inverse kernel. -/
def invNegLoop (P : InvArgs) (alpha : ℚ) (j : ℕ) (count : ℕ)
    (hE tE : List (List ℚ)) (rng : ℕ) : List (List ℚ) × ℕ :=
  (List.range count).foldl
    (fun hr _ =>
      let kp := ((P.rngStream hr.2).emod (P.nVertices : ℤ)).toNat
      (invNegStep P alpha j kp hr.1 tE, hr.2 + 1))
    (hE, rng)

/-- Processing of one edge by the inverse kernel (lines 1897-1952).  As
in the generic kernel, `epoch_of_next_negative_sample[i]` is incremented
unconditionally on firing (lines 1950-1952). -/
def invEdgeStep (P : InvArgs) (alpha : ℚ) (n : ℕ) (s : GenState) (i : ℕ) :
    GenState :=
  if s.eons.getD i 0 ≤ (n : ℚ) then
    let j := P.head.getD i 0
    let k := P.tail.getD i 0
    let dg := P.metric (s.headEmb.getD j []) (s.tailEmb.getD k [])
    let wl := P.weight.getD i 0
    let gc := -(1 / (wl * P.sigmas.getD k 0 + 1 / 1000000))
    let ht := invAttrLoop P.dim alpha gc dg.2 P.moveOther
      s.headEmb s.tailEmb j k
    let eons2 := s.eons.set i (s.eons.getD i 0 + P.eps.getD i 0)
    let nneg := pyint (((n : ℚ) - s.eonns.getD i 0) / P.epns.getD i 0)
    let hr := invNegLoop P alpha j nneg.toNat ht.1 ht.2 s.rng
    { headEmb := hr.1, tailEmb := ht.2, eons := eons2,
      eonns := s.eonns.set i (s.eonns.getD i 0 + (nneg : ℚ) * P.epns.getD i 0),
      rng := hr.2 }
  else s

/-- `_optimize_layout_inverse_single_epoch` (lines 1875-1953): one pass
over all edges in array order. -/
def optimize_layout_inverse_single_epoch (P : InvArgs) (alpha : ℚ) (n : ℕ)
    (s : GenState) : GenState :=
  (List.range P.eps.length).foldl (invEdgeStep P alpha n) s

/-- The epoch-indexed state trajectory of `optimize_layout_inverse`
(lines 1956-2097): same initialization and anneal as the generic
driver. -/
def invRunStates (P : InvArgs) (initialAlpha : ℚ) (nEpochs : ℕ)
    (headEmb tailEmb : List (List ℚ)) : ℕ → GenState
  | 0 =>
    { headEmb := headEmb, tailEmb := tailEmb, eons := P.eps,
      eonns := P.epns, rng := 0 }
  | n + 1 =>
    optimize_layout_inverse_single_epoch P (alphaAt initialAlpha nEpochs n) n
      (invRunStates P initialAlpha nEpochs headEmb tailEmb n)

/-- Static arguments of the aligned kernel
(`_optimize_layout_aligned_euclidean_single_epoch`, lines 2100-2258).
`embOrder n` is the order in which the embeddings are visited at epoch
`n`: the source shuffles `arange(n_embeddings)` with `np.random`
(lines 2129-2131), an external PRNG whose algorithm is out of scope, so
the order is an arbitrary parameter here. -/
structure AlgArgs where
  heads : List (List ℕ)
  tails : List (List ℕ)
  eps : List (List ℚ)
  a : ℚ
  b : ℚ
  regWeights : List (List (List ℚ))
  relations : List (List (List ℤ))
  gamma : ℚ
  lam : ℚ
  dim : ℕ
  moveOther : Bool
  epns : List (List ℚ)
  ops : RealOps
  rngStream : ℕ → ℤ
  embOrder : ℕ → List ℕ

/-- Mutable state of the aligned kernel: per-embedding head and tail
arrays, per-embedding schedule arrays, PRNG cursor. -/
structure AlgState where
  headEmbs : List (List (List ℚ))
  tailEmbs : List (List (List ℚ))
  eons : List (List ℚ)
  eonns : List (List ℚ)
  rng : ℕ

/-- Read entry `d` of row `i` of embedding `m`. -/
def aget (hs : List (List (List ℚ))) (m i d : ℕ) : ℚ :=
  eget (hs.getD m []) i d

/-- Write entry `d` of row `i` of embedding `m`. -/
def aset (hs : List (List (List ℚ))) (m i d : ℕ) (v : ℚ) :
    List (List (List ℚ)) :=
  hs.set m (eset (hs.getD m []) i d v)

/-- The cross-embedding regularisation subtraction applied to one
gradient component (lines 2153-2172 and 2231-2252): fold over
`offset in range(-window_size, window_size)` — note the upper bound is
exclusive — guarded by the chained comparison
`n_embeddings > neighbor_m >= 0 != offset` and by a nonnegative
relation entry; `x` is the live value of `current[d]`. -/
def alignedRegFold (P : AlgArgs) (hs : List (List (List ℚ)))
    (nEmb w m v d : ℕ) (x g : ℚ) : ℚ :=
  ((List.range (2 * w)).map (fun t => (t : ℤ) - (w : ℤ))).foldl
    (fun gacc offset =>
      let neighborM := (m : ℤ) + offset
      if (nEmb : ℤ) > neighborM ∧ neighborM ≥ 0 ∧ (0 : ℤ) ≠ offset then
        let identified :=
          ((P.relations.getD m []).getD (offset + (w : ℤ)).toNat []).getD v 0
        if identified ≥ 0 then
          gacc - clip ((P.lam * P.ops.exp (-((offset.natAbs : ℚ) - 1)))
            * ((P.regWeights.getD m []).getD (offset + (w : ℤ)).toNat []).getD v 0
            * (x - eget (hs.getD neighborM.toNat []) identified.toNat d))
        else gacc
      else gacc)
    g

/-- Attractive per-dimension loop of the aligned kernel
(lines 2150-2196): the regularised, reclipped gradient moves `current`;
under `move_other` the `other` point then moves by its own clipped
coefficient gradient (the regularisation sums computed inside that
branch, lines 2178-2194, feed the local `grad_d` which is dead at that
point: it is reassigned at the top of the next dimension iteration, so
they have no observable effect). -/
def alignedAttrLoop (P : AlgArgs) (alpha gc : ℚ) (nEmb w m j k : ℕ)
    (hs ts : List (List (List ℚ))) :
    List (List (List ℚ)) × List (List (List ℚ)) :=
  (List.range P.dim).foldl
    (fun st d =>
      let x := aget st.1 m j d
      let g0 := clip (gc * (x - aget st.2 m k d))
      let g1 := alignedRegFold P st.1 nEmb w m j d x g0
      let h1 := aset st.1 m j d (x + clip g1 * alpha)
      if P.moveOther then
        let og := clip (gc * (aget st.2 m k d - aget h1 m j d))
        (h1, aset st.2 m k d (aget st.2 m k d + clip og * alpha))
      else (h1, st.2))
    (hs, ts)

/-- Per-dimension loop of one aligned negative sample
(lines 2225-2254): the raw component is `clip(gc·(cur-oth))` when
`gc > 0` and the constant `4.0` otherwise, regularised and reclipped
before application; only the current (head) row moves. -/
def alignedNegLoopD (P : AlgArgs) (alpha gc : ℚ) (nEmb w m j kp : ℕ)
    (hs ts : List (List (List ℚ))) : List (List (List ℚ)) :=
  (List.range P.dim).foldl
    (fun h d =>
      let x := aget h m j d
      let g0 := if gc > 0 then clip (gc * (x - aget ts m kp d)) else (4 : ℚ)
      let g1 := alignedRegFold P h nEmb w m j d x g0
      aset h m j d (x + clip g1 * alpha))
    hs

/-- One drawn negative sample of the aligned kernel (lines 2208-2254):
skipped entirely when the distance is zero and `j == k`. -/
def alignedNegStep (P : AlgArgs) (alpha : ℚ) (nEmb w m j kp : ℕ)
    (hs ts : List (List (List ℚ))) : List (List (List ℚ)) :=
  let current := (hs.getD m []).getD j []
  let other := (ts.getD m []).getD kp []
  let distSquared := rdist current other
  if distSquared > 0 then
    alignedNegLoopD P alpha (neg_grad_coeff P.ops P.a P.b P.gamma distSquared)
      nEmb w m j kp hs ts
  else if j = kp then hs
  else alignedNegLoopD P alpha 0 nEmb w m j kp hs ts

/-- The negative-sampling loop of the aligned kernel: partners are drawn
modulo `tail_embeddings[m].shape[0]` (line 2209). -/
def alignedNegLoop (P : AlgArgs) (alpha : ℚ) (nEmb w m j : ℕ) (count : ℕ)
    (hs ts : List (List (List ℚ))) (rng : ℕ) :
    List (List (List ℚ)) × ℕ :=
  (List.range count).foldl
    (fun hr _ =>
      let kp := ((P.rngStream hr.2).emod ((ts.getD m []).length : ℤ)).toNat
      (alignedNegStep P alpha nEmb w m j kp hr.1 ts, hr.2 + 1))
    (hs, rng)

/-- Processing of edge slot `i` of embedding `m` by the aligned kernel
(lines 2135-2258): guarded by `i < epoch_of_next_sample[m].shape[0]` and
the firing test.  `n_neg_samples` is computed only when
`epochs_per_negative_sample[m][i] > 0` (lines 2200-2206) and
`epoch_of_next_negative_sample[m][i]` is incremented unconditionally
(lines 2256-2258). -/
def alignedEdgeStep (P : AlgArgs) (alpha : ℚ) (n : ℕ) (nEmb w : ℕ)
    (s : AlgState) (i m : ℕ) : AlgState :=
  if i < (s.eons.getD m []).length ∧ (s.eons.getD m []).getD i 0 ≤ (n : ℚ) then
    let j := (P.heads.getD m []).getD i 0
    let k := (P.tails.getD m []).getD i 0
    let current := (s.headEmbs.getD m []).getD j []
    let other := (s.tailEmbs.getD m []).getD k []
    let distSquared := rdist current other
    let gc := attr_grad_coeff P.ops P.a P.b distSquared
    let ht := alignedAttrLoop P alpha gc nEmb w m j k s.headEmbs s.tailEmbs
    let eons2 := s.eons.set m ((s.eons.getD m []).set i
      ((s.eons.getD m []).getD i 0 + (P.eps.getD m []).getD i 0))
    let epnsmi := (P.epns.getD m []).getD i 0
    let nneg :=
      if epnsmi > 0 then
        pyint (((n : ℚ) - (s.eonns.getD m []).getD i 0) / epnsmi)
      else 0
    let hr := alignedNegLoop P alpha nEmb w m j nneg.toNat ht.1 ht.2 s.rng
    { headEmbs := hr.1, tailEmbs := ht.2, eons := eons2,
      eonns := s.eonns.set m ((s.eonns.getD m []).set i
        ((s.eonns.getD m []).getD i 0 + (nneg : ℚ) * epnsmi)),
      rng := hr.2 }
  else s

/-- `_optimize_layout_aligned_euclidean_single_epoch` (lines 2100-2258):
for each edge slot `i` up to the maximal edge count, visit the
embeddings in this epoch's shuffled order. -/
def optimize_layout_aligned_euclidean_single_epoch (P : AlgArgs)
    (alpha : ℚ) (n : ℕ) (s : AlgState) : AlgState :=
  let nEmb := P.heads.length
  let w := ((P.relations.getD 0 []).length - 1) / 2
  let maxE := P.eps.foldl (fun mx l => if l.length ≥ mx then l.length else mx) 0
  (List.range maxE).foldl
    (fun s1 i =>
      (P.embOrder n).foldl (fun s2 m => alignedEdgeStep P alpha n nEmb w s2 i m) s1)
    s

/-- The epoch-indexed state trajectory of
`optimize_layout_aligned_euclidean` (lines 2265-2343): per-embedding
schedule arrays are initialized to copies of `epochs_per_sample[m]` and
`epochs_per_negative_sample[m]` (lines 2295-2302); the anneal is the
same as the euclidean driver. -/
def alignedRunStates (P : AlgArgs) (initialAlpha : ℚ) (nEpochs : ℕ)
    (headEmbs tailEmbs : List (List (List ℚ))) : ℕ → AlgState
  | 0 =>
    { headEmbs := headEmbs, tailEmbs := tailEmbs, eons := P.eps,
      eonns := P.epns, rng := 0 }
  | n + 1 =>
    optimize_layout_aligned_euclidean_single_epoch P
      (alphaAt initialAlpha nEpochs n) n
      (alignedRunStates P initialAlpha nEpochs headEmbs tailEmbs n)

/-- The pointwise schedule invariant carried across the epoch loop: every
`epoch_of_next_sample` entry dominates its `epochs_per_sample` entry, and
every `epoch_of_next_negative_sample` entry has either already been
updated this run (value at most the current epoch) or still carries its
initial value `epochs_per_negative_sample[i]`. -/
def schedInv (eps epns eons eonns : List ℚ) (n : ℕ) : Prop :=
  ∀ i, eps.getD i 0 ≤ eons.getD i 0 ∧
    (eonns.getD i 0 ≤ (n : ℚ) ∨ eonns.getD i 0 = epns.getD i 0)

/-- Pointwise schedule order on generic/inverse kernel states. -/
def genLe (s1 s2 : GenState) : Prop :=
  ∀ t, s1.eons.getD t 0 ≤ s2.eons.getD t 0 ∧
    s1.eonns.getD t 0 ≤ s2.eonns.getD t 0

/-- Pointwise schedule order on euclidean kernel states. -/
def eucLe (s1 s2 : EucState) : Prop :=
  ∀ t, s1.eons.getD t 0 ≤ s2.eons.getD t 0 ∧
    s1.eonns.getD t 0 ≤ s2.eonns.getD t 0

/-- The aligned kernel's nested schedule invariant: the per-embedding
`epoch_of_next_sample` arrays keep the length of `epochs_per_sample[m]`,
entries dominate their `epochs_per_sample` entries, and the negative
entries are updated-or-initial. -/
def schedInvA (eps epns eons eonns : List (List ℚ)) (n : ℕ) : Prop :=
  (∀ m, (eons.getD m []).length = (eps.getD m []).length) ∧
    ∀ m i, (eps.getD m []).getD i 0 ≤ (eons.getD m []).getD i 0 ∧
      ((eonns.getD m []).getD i 0 ≤ (n : ℚ) ∨
        (eonns.getD m []).getD i 0 = (epns.getD m []).getD i 0)

/-- Pointwise schedule order on aligned kernel states. -/
def algLe (s1 s2 : AlgState) : Prop :=
  ∀ m i, (s1.eons.getD m []).getD i 0 ≤ (s2.eons.getD m []).getD i 0 ∧
    (s1.eonns.getD m []).getD i 0 ≤ (s2.eonns.getD m []).getD i 0

/-- The hook set produced by a 1-D pin mask: only `wrap_idx_grad` is
populated, with `con.pinindexed_grad` over the fixed indices. -/
def pinHooks (F : List ℕ) : Hooks :=
  { idxPt := none, idxGrad := some (pinindexed_grad F), pt := none,
    grad := none }

def c1P : EucKernelArgs :=
  { head := [0, 1], tail := [1, 0], nVertices := 2, eps := [1, 1],
    a := 1, b := 1, gamma := 1, dim := 1, moveOther := true,
    epns := [1, 1], hooks := {}, densFlag := false,
    dens := ⟨[], [], 0, 0, 0, 0, [], [], 0⟩, ops := trivOps,
    rngStream := fun _ => 0 }

def c1S : EucState :=
  { emb := [[0], [1]], eons := [0, 10], eonns := [1, 1], rng := 0 }

def c2EucArgs : EucDriverArgs :=
  { headEmbedding := [[0], [1]], head := [0], tail := [1], nEpochs := 3,
    nVertices := 2, eps := [1], a := 1, b := 1 }

def c2GenArgs : GenArgs :=
  { head := [0], tail := [1], nVertices := 2, eps := [1], epns := [1 / 5],
    a := 1, b := 1, gamma := 1, dim := 1, moveOther := false,
    metric := fun x y => (rdist x y, x), ops := trivOps,
    rngStream := fun _ => 0 }

def c2InvArgs : InvArgs :=
  { head := [0], tail := [1], nVertices := 2, eps := [1], epns := [1 / 5],
    weight := [1], sigmas := [1, 1], rhos := [1, 1], gamma := 1, dim := 1,
    moveOther := false, metric := fun x y => (rdist x y, x), ops := trivOps,
    rngStream := fun _ => 0 }

def c2AlgArgs : AlgArgs :=
  { heads := [[0]], tails := [[1]], eps := [[1]], a := 1, b := 1,
    regWeights := [], relations := [], gamma := 1, lam := 1, dim := 1,
    moveOther := false, epns := [[1 / 5]], ops := trivOps,
    rngStream := fun _ => 0, embOrder := fun _ => [0] }

def c4Args : EucDriverArgs :=
  { headEmbedding := [[1]], head := [], tail := [], nEpochs := 0,
    nVertices := 1, eps := [], a := 1, b := 1,
    outputConstrain := { finalPt := some (fun _ => [[2]]) } }

def c4WArgs : EucDriverArgs :=
  { headEmbedding := [[1]], head := [], tail := [], nEpochs := 0,
    nVertices := 1, eps := [], a := 1, b := 1 }

def c5P : EucKernelArgs :=
  { head := [0], tail := [0], nVertices := 1, eps := [1], a := 1, b := 1,
    gamma := 1, dim := 2, moveOther := false, epns := [1], hooks := {},
    densFlag := false, dens := ⟨[], [], 0, 0, 0, 0, [], [], 0⟩,
    ops := trivOps, rngStream := fun _ => 0 }

def c7Args : EucDriverArgs :=
  { headEmbedding := [[0], [5]], head := [0], tail := [1], nEpochs := 1,
    nVertices := 2, eps := [1], a := 1, b := 1, moveOther := true,
    pinMask := .array1d [0, 1] }

def c8Args : EucDriverArgs :=
  { headEmbedding := [[0]], head := [], tail := [], nEpochs := 1,
    nVertices := 1, eps := [], a := 1, b := 1,
    outputConstrain := { epochPt := some (fun e => e) } }

def c8BothArgs : EucDriverArgs :=
  { headEmbedding := [[0]], head := [], tail := [], nEpochs := 1,
    nVertices := 1, eps := [], a := 1, b := 1,
    outputConstrain :=
      { epochPt := some (fun _ => [[1]]), finalPt := some (fun _ => [[2]]) } }

def c10Args : EucDriverArgs :=
  { headEmbedding := [[0]], head := [], tail := [], nEpochs := 1,
    nVertices := 1, eps := [], a := 1, b := 1,
    pinMask := .dict [.otherEntry "not_a_key"] }

theorem getD_set_self {α : Type} (l : List α) (i : ℕ) (v d : α)
    (h : i < l.length) : (l.set i v).getD i d = v := by
  simp [List.getD_eq_getElem?_getD, List.getElem?_set_eq_of_lt v h]

theorem getD_mem {α : Type} (l : List α) (i : ℕ) (d : α) (h : i < l.length) :
    l.getD i d ∈ l := by
  induction l generalizing i with
  | nil => simp at h
  | cons a t ih =>
    cases i with
    | zero => simp
    | succ i2 =>
      have h2 := ih i2 (by simpa using h)
      simp only [List.getD_cons_succ]
      exact List.mem_cons_of_mem a h2

theorem getD_set_ne {α : Type} (l : List α) (i j : ℕ) (v d : α) (h : i ≠ j) :
    (l.set i v).getD j d = l.getD j d := by
  simp [List.getD_eq_getElem?_getD, List.getElem?_set_ne h]

theorem set_getD_cancel {α : Type} (l : List α) (i : ℕ) (d : α) :
    l.set i (l.getD i d) = l := by
  induction l generalizing i with
  | nil => rfl
  | cons a t ih =>
    cases i with
    | zero => simp
    | succ i2 => simpa using ih i2

theorem getD_nonneg_of_forall_pos (l : List ℚ) (h : ∀ x ∈ l, 0 < x) (i : ℕ) :
    0 ≤ l.getD i 0 := by
  induction l generalizing i with
  | nil => simp [List.getD]
  | cons a t ih =>
    cases i with
    | zero => exact le_of_lt (h a (by simp))
    | succ i2 => simpa using ih (fun x hx => h x (by simp [hx])) i2

theorem getD_pos_of_forall_pos (l : List ℚ) (h : ∀ x ∈ l, 0 < x) (i : ℕ)
    (hi : i < l.length) : 0 < l.getD i 0 := by
  induction l generalizing i with
  | nil => simp at hi
  | cons a t ih =>
    cases i with
    | zero => exact h a (by simp)
    | succ i2 => simpa using ih (fun x hx => h x (by simp [hx])) i2 (by simpa using hi)

theorem getD_default_of_le_length {α : Type} (l : List α) (i : ℕ) (d : α)
    (h : l.length ≤ i) : l.getD i d = d := by
  induction l generalizing i with
  | nil => simp [List.getD]
  | cons a t ih =>
    cases i with
    | zero => simp at h
    | succ i2 => simpa using ih i2 (by simpa using h)

theorem pyint_nonneg (q : ℚ) (h : -1 < q) : 0 ≤ pyint q := by
  unfold pyint
  split
  · rename_i hq
    have h1 : -q < 1 := by linarith
    have h2 : (0 : ℚ) ≤ -q := by linarith
    have h3 : ⌊-q⌋ = 0 := Int.floor_eq_zero_iff.mpr ⟨h2, h1⟩
    simp [h3]
  · rename_i hq
    exact Int.floor_nonneg.mpr (le_of_not_lt hq)

theorem pyint_le_self (q : ℚ) (h : 1 ≤ pyint q) : (pyint q : ℚ) ≤ q := by
  by_cases hq : q < 0
  · exfalso
    have h2 : pyint q = -(⌊-q⌋) := by simp [pyint, hq]
    have h0 : (0 : ℤ) ≤ ⌊-q⌋ := Int.floor_nonneg.mpr (by linarith)
    omega
  · have h2 : pyint q = ⌊q⌋ := by simp [pyint, hq]
    rw [h2]
    exact Int.floor_le q

theorem pyint_zero : pyint 0 = 0 := by
  simp [pyint]

theorem schedInv_succ (eps epns eons eonns : List ℚ) (n : ℕ)
    (h : schedInv eps epns eons eonns n) :
    schedInv eps epns eons eonns (n + 1) := by
  intro i
  refine ⟨(h i).1, ?_⟩
  rcases (h i).2 with h2 | h2
  · left
    have : ((n : ℚ)) ≤ ((n + 1 : ℕ) : ℚ) := by push_cast; linarith
    linarith
  · right; exact h2

theorem sched_nneg_key (n : ℕ) (y p : ℚ) (hp : 0 < p) (hn : 1 ≤ n)
    (hinv : y ≤ (n : ℚ) ∨ y = p) :
    0 ≤ pyint (((n : ℚ) - y) / p) ∧
      (pyint (((n : ℚ) - y) / p) = 0 ∨
        y + (pyint (((n : ℚ) - y) / p) : ℚ) * p ≤ (n : ℚ)) := by
  have hq : -1 < ((n : ℚ) - y) / p := by
    rcases hinv with hy | hy
    · have h0 : 0 ≤ ((n : ℚ) - y) / p := div_nonneg (by linarith) (le_of_lt hp)
      linarith
    · have hnpos : (0 : ℚ) < (n : ℚ) := by
        have h1 : (1 : ℚ) ≤ (n : ℚ) := by exact_mod_cast hn
        linarith
      have hq2 : ((n : ℚ) - y) / p = (n : ℚ) / p - 1 := by
        rw [hy]
        field_simp
      rw [hq2]
      have h3 : 0 < (n : ℚ) / p := div_pos hnpos hp
      linarith
  have h0 : 0 ≤ pyint (((n : ℚ) - y) / p) := pyint_nonneg _ hq
  refine ⟨h0, ?_⟩
  rcases eq_or_lt_of_le h0 with h1 | h1
  · exact Or.inl h1.symm
  · right
    have hle : (pyint (((n : ℚ) - y) / p) : ℚ) ≤ ((n : ℚ) - y) / p :=
      pyint_le_self _ (by omega)
    have hmul : (pyint (((n : ℚ) - y) / p) : ℚ) * p ≤ (((n : ℚ) - y) / p) * p :=
      mul_le_mul_of_nonneg_right hle (le_of_lt hp)
    have hqp : (((n : ℚ) - y) / p) * p = (n : ℚ) - y := by
      field_simp
    linarith

/-- Monotonicity and invariant preservation of the shared schedule update
of a firing edge in the generic and inverse kernels:
`eons[i] += eps[i]` followed by the unconditional
`eonns[i] += pyint((n - eonns[i])/epns[i]) * epns[i]`. -/
theorem sched_pair_mono (eps epns eons eonns : List ℚ) (n : ℕ) (i : ℕ)
    (heps : ∀ x ∈ eps, 0 < x) (hepns : ∀ x ∈ epns, 0 < x)
    (hi : i < eps.length)
    (hfire : eons.getD i 0 ≤ (n : ℚ))
    (hinv : schedInv eps epns eons eonns n) :
    (∀ t, eons.getD t 0 ≤
        (eons.set i (eons.getD i 0 + eps.getD i 0)).getD t 0 ∧
      eonns.getD t 0 ≤
        (eonns.set i (eonns.getD i 0 +
          (pyint (((n : ℚ) - eonns.getD i 0) / epns.getD i 0) : ℚ)
            * epns.getD i 0)).getD t 0) ∧
    schedInv eps epns (eons.set i (eons.getD i 0 + eps.getD i 0))
      (eonns.set i (eonns.getD i 0 +
        (pyint (((n : ℚ) - eonns.getD i 0) / epns.getD i 0) : ℚ)
          * epns.getD i 0)) n := by
  have hepsi : 0 < eps.getD i 0 := getD_pos_of_forall_pos eps heps i hi
  have hn : 1 ≤ n := by
    have h1 := (hinv i).1
    have h2 : (0 : ℚ) < (n : ℚ) := by linarith
    exact_mod_cast Nat.one_le_iff_ne_zero.mpr (by
      intro h0
      rw [h0] at h2
      simp at h2)
  have hincr : 0 ≤ (pyint (((n : ℚ) - eonns.getD i 0) / epns.getD i 0) : ℚ)
      * epns.getD i 0 ∧
      (eonns.getD i 0 +
        (pyint (((n : ℚ) - eonns.getD i 0) / epns.getD i 0) : ℚ)
          * epns.getD i 0 ≤ (n : ℚ) ∨
       (pyint (((n : ℚ) - eonns.getD i 0) / epns.getD i 0) : ℚ)
          * epns.getD i 0 = 0) := by
    rcases lt_or_le i epns.length with hlen | hlen
    · have hp : 0 < epns.getD i 0 := getD_pos_of_forall_pos epns hepns i hlen
      have hkey := sched_nneg_key n (eonns.getD i 0) (epns.getD i 0) hp hn (hinv i).2
      constructor
      · exact mul_nonneg (by exact_mod_cast hkey.1) (le_of_lt hp)
      · rcases hkey.2 with h2 | h2
        · right; rw [h2]; simp
        · left; exact h2
    · have hp : epns.getD i 0 = 0 := getD_default_of_le_length epns i 0 hlen
      rw [hp]
      simp
  constructor
  · intro t
    by_cases ht : i = t
    · subst ht
      rcases lt_or_le i eons.length with h1 | h1
      · rcases lt_or_le i eonns.length with h2 | h2
        · rw [getD_set_self eons i _ 0 h1, getD_set_self eonns i _ 0 h2]
          constructor
          · linarith
          · linarith [hincr.1]
        · rw [getD_set_self eons i _ 0 h1, List.set_eq_of_length_le h2]
          constructor
          · linarith
          · linarith
      · rw [List.set_eq_of_length_le h1]
        rcases lt_or_le i eonns.length with h2 | h2
        · rw [getD_set_self eonns i _ 0 h2]
          exact ⟨le_refl _, by linarith [hincr.1]⟩
        · rw [List.set_eq_of_length_le h2]
          exact ⟨le_refl _, le_refl _⟩
    · rw [getD_set_ne eons i t _ 0 ht, getD_set_ne eonns i t _ 0 ht]
      exact ⟨le_refl _, le_refl _⟩
  · intro t
    by_cases ht : i = t
    · subst ht
      constructor
      · rcases lt_or_le i eons.length with h1 | h1
        · rw [getD_set_self eons i _ 0 h1]
          have := (hinv i).1
          linarith
        · rw [List.set_eq_of_length_le h1]
          exact (hinv i).1
      · rcases lt_or_le i eonns.length with h2 | h2
        · rw [getD_set_self eonns i _ 0 h2]
          rcases hincr.2 with h3 | h3
          · left; exact h3
          · rw [h3]
            simpa using (hinv i).2
        · rw [List.set_eq_of_length_le h2]
          exact (hinv i).2
    · rw [getD_set_ne eons i t _ 0 ht, getD_set_ne eonns i t _ 0 ht]
      exact hinv t

theorem set_add_nonneg_mono (l : List ℚ) (i : ℕ) (c : ℚ) (hc : 0 ≤ c) :
    ∀ t, l.getD t 0 ≤ (l.set i (l.getD i 0 + c)).getD t 0 := by
  intro t
  by_cases ht : i = t
  · subst ht
    rcases lt_or_le i l.length with h1 | h1
    · rw [getD_set_self l i _ 0 h1]
      linarith
    · rw [List.set_eq_of_length_le h1]
  · rw [getD_set_ne l i t _ 0 ht]

theorem genEdgeStep_sched (P : GenArgs) (alpha : ℚ) (n : ℕ) (s : GenState)
    (i : ℕ) (heps : ∀ x ∈ P.eps, 0 < x) (hepns : ∀ x ∈ P.epns, 0 < x)
    (hi : i < P.eps.length)
    (hinv : schedInv P.eps P.epns s.eons s.eonns n) :
    (∀ t, s.eons.getD t 0 ≤ (genEdgeStep P alpha n s i).eons.getD t 0 ∧
          s.eonns.getD t 0 ≤ (genEdgeStep P alpha n s i).eonns.getD t 0) ∧
      schedInv P.eps P.epns (genEdgeStep P alpha n s i).eons
        (genEdgeStep P alpha n s i).eonns n := by
  unfold genEdgeStep
  split
  · rename_i hfire
    dsimp only
    exact sched_pair_mono P.eps P.epns s.eons s.eonns n i heps hepns hi hfire hinv
  · exact ⟨fun t => ⟨le_refl _, le_refl _⟩, hinv⟩

theorem invEdgeStep_sched (P : InvArgs) (alpha : ℚ) (n : ℕ) (s : GenState)
    (i : ℕ) (heps : ∀ x ∈ P.eps, 0 < x) (hepns : ∀ x ∈ P.epns, 0 < x)
    (hi : i < P.eps.length)
    (hinv : schedInv P.eps P.epns s.eons s.eonns n) :
    (∀ t, s.eons.getD t 0 ≤ (invEdgeStep P alpha n s i).eons.getD t 0 ∧
          s.eonns.getD t 0 ≤ (invEdgeStep P alpha n s i).eonns.getD t 0) ∧
      schedInv P.eps P.epns (invEdgeStep P alpha n s i).eons
        (invEdgeStep P alpha n s i).eonns n := by
  unfold invEdgeStep
  split
  · rename_i hfire
    dsimp only
    exact sched_pair_mono P.eps P.epns s.eons s.eonns n i heps hepns hi hfire hinv
  · exact ⟨fun t => ⟨le_refl _, le_refl _⟩, hinv⟩

/-- Monotonicity and invariant preservation for the euclidean kernels'
schedule update: the pre-bump of entry `tail[i]` (sequential kernel with
`move_other`, absent when `bump = false`), the entry `i` increment and
the guarded negative-schedule update. -/
theorem euc_sched_core (eps epns eons eonns : List ℚ) (n : ℕ) (i k : ℕ)
    (bump : Bool)
    (heps : ∀ x ∈ eps, 0 < x) (hepns : ∀ x ∈ epns, 0 < x)
    (hi : i < eps.length)
    (hfire : eons.getD i 0 ≤ (n : ℚ))
    (hinv : schedInv eps epns eons eonns n) :
    let eons1 := if bump then eons.set k (eons.getD k 0 + eps.getD k 0) else eons
    let eons2 := eons1.set i (eons1.getD i 0 + eps.getD i 0)
    let nneg := pyint (((n : ℚ) - eonns.getD i 0) / epns.getD i 0)
    let eonns2 :=
      if nneg ≤ 0 then eonns
      else eonns.set i (eonns.getD i 0 + (nneg : ℚ) * epns.getD i 0)
    (∀ t, eons.getD t 0 ≤ eons2.getD t 0 ∧ eonns.getD t 0 ≤ eonns2.getD t 0) ∧
      schedInv eps epns eons2 eonns2 n := by
  intro eons1 eons2 nneg eonns2
  have hepsk : 0 ≤ eps.getD k 0 := getD_nonneg_of_forall_pos eps heps k
  have hepsi : 0 < eps.getD i 0 := getD_pos_of_forall_pos eps heps i hi
  have hmono1 : ∀ t, eons.getD t 0 ≤ eons1.getD t 0 := by
    intro t
    show eons.getD t 0 ≤ (if bump then _ else eons).getD t 0
    split
    · exact set_add_nonneg_mono eons k _ hepsk t
    · exact le_refl _
  have hmono2 : ∀ t, eons.getD t 0 ≤ eons2.getD t 0 := by
    intro t
    exact le_trans (hmono1 t) (set_add_nonneg_mono eons1 i _ (le_of_lt hepsi) t)
  have hn : 1 ≤ n := by
    have h1 := (hinv i).1
    have h2 : (0 : ℚ) < (n : ℚ) := by linarith
    exact_mod_cast Nat.one_le_iff_ne_zero.mpr (by
      intro h0
      rw [h0] at h2
      simp at h2)
  have hmono3 : ∀ t, eonns.getD t 0 ≤ eonns2.getD t 0 := by
    intro t
    show eonns.getD t 0 ≤ (if nneg ≤ 0 then eonns else _).getD t 0
    split
    · exact le_refl _
    · rename_i hpos
      rcases lt_or_le i epns.length with hlen | hlen
      · have hp : 0 < epns.getD i 0 := getD_pos_of_forall_pos epns hepns i hlen
        have hkey := sched_nneg_key n (eonns.getD i 0) (epns.getD i 0) hp hn (hinv i).2
        exact set_add_nonneg_mono eonns i _
          (mul_nonneg (by exact_mod_cast hkey.1) (le_of_lt hp)) t
      · have hp : epns.getD i 0 = 0 := getD_default_of_le_length epns i 0 hlen
        rw [hp]
        simpa using set_add_nonneg_mono eonns i 0 (le_refl 0) t
  refine ⟨fun t => ⟨hmono2 t, hmono3 t⟩, ?_⟩
  intro t
  constructor
  · exact le_trans (hinv t).1 (hmono2 t)
  · show (if nneg ≤ 0 then eonns else _).getD t 0 ≤ (n : ℚ) ∨
      (if nneg ≤ 0 then eonns else _).getD t 0 = epns.getD t 0
    split
    · exact (hinv t).2
    · rename_i hpos
      by_cases ht : i = t
      · subst ht
        rcases lt_or_le i eonns.length with h2 | h2
        · rw [getD_set_self eonns i _ 0 h2]
          rcases lt_or_le i epns.length with hlen | hlen
          · have hp : 0 < epns.getD i 0 := getD_pos_of_forall_pos epns hepns i hlen
            have hkey := sched_nneg_key n (eonns.getD i 0) (epns.getD i 0) hp hn (hinv i).2
            rcases hkey.2 with h3 | h3
            · exact absurd h3 (by omega)
            · exact Or.inl h3
          · have hp : epns.getD i 0 = 0 := getD_default_of_le_length epns i 0 hlen
            have h4 : eonns.getD i 0 + (nneg : ℚ) * epns.getD i 0 = eonns.getD i 0 := by
              rw [hp]
              ring
            rw [h4]
            exact (hinv i).2
        · rw [List.set_eq_of_length_le h2]
          exact (hinv i).2
      · rw [getD_set_ne eonns i t _ 0 ht]
        exact (hinv t).2

theorem edgeStepSeq_eons (P : EucKernelArgs) (alpha : ℚ) (n : ℕ)
    (s : EucState) (i : ℕ) (hfire : s.eons.getD i 0 ≤ (n : ℚ)) :
    (edgeStepSeq P alpha n s i).eons =
      (if P.moveOther then
          s.eons.set (P.tail.getD i 0)
            (s.eons.getD (P.tail.getD i 0) 0 + P.eps.getD (P.tail.getD i 0) 0)
        else s.eons).set i
        ((if P.moveOther then
            s.eons.set (P.tail.getD i 0)
              (s.eons.getD (P.tail.getD i 0) 0 + P.eps.getD (P.tail.getD i 0) 0)
          else s.eons).getD i 0 + P.eps.getD i 0) := by
  unfold edgeStepSeq
  rw [if_pos hfire]
  dsimp only
  split <;> rfl

theorem edgeStepSeq_eonns (P : EucKernelArgs) (alpha : ℚ) (n : ℕ)
    (s : EucState) (i : ℕ) (hfire : s.eons.getD i 0 ≤ (n : ℚ)) :
    (edgeStepSeq P alpha n s i).eonns =
      (if pyint (((n : ℚ) - s.eonns.getD i 0) / P.epns.getD i 0) ≤ 0 then s.eonns
       else s.eonns.set i (s.eonns.getD i 0 +
         (pyint (((n : ℚ) - s.eonns.getD i 0) / P.epns.getD i 0) : ℚ)
           * P.epns.getD i 0)) := by
  unfold edgeStepSeq
  rw [if_pos hfire]
  dsimp only
  split <;> rfl

theorem edgeStepSeq_notfire (P : EucKernelArgs) (alpha : ℚ) (n : ℕ)
    (s : EucState) (i : ℕ) (hfire : ¬ s.eons.getD i 0 ≤ (n : ℚ)) :
    edgeStepSeq P alpha n s i = s := by
  unfold edgeStepSeq
  rw [if_neg hfire]

theorem edgeStepSeq_sched (P : EucKernelArgs) (alpha : ℚ) (n : ℕ)
    (s : EucState) (i : ℕ)
    (heps : ∀ x ∈ P.eps, 0 < x) (hepns : ∀ x ∈ P.epns, 0 < x)
    (hi : i < P.eps.length)
    (hinv : schedInv P.eps P.epns s.eons s.eonns n) :
    (∀ t, s.eons.getD t 0 ≤ (edgeStepSeq P alpha n s i).eons.getD t 0 ∧
          s.eonns.getD t 0 ≤ (edgeStepSeq P alpha n s i).eonns.getD t 0) ∧
      schedInv P.eps P.epns (edgeStepSeq P alpha n s i).eons
        (edgeStepSeq P alpha n s i).eonns n := by
  by_cases hfire : s.eons.getD i 0 ≤ (n : ℚ)
  · rw [edgeStepSeq_eons P alpha n s i hfire, edgeStepSeq_eonns P alpha n s i hfire]
    exact euc_sched_core P.eps P.epns s.eons s.eonns n i
      (P.tail.getD i 0) P.moveOther heps hepns hi hfire hinv
  · rw [edgeStepSeq_notfire P alpha n s i hfire]
    exact ⟨fun t => ⟨le_refl _, le_refl _⟩, hinv⟩

theorem edgeStepPara_eons (P : EucKernelArgs) (alpha : ℚ) (n : ℕ)
    (s : EucState) (i : ℕ) (hfire : s.eons.getD i 0 ≤ (n : ℚ)) :
    (edgeStepPara P alpha n s i).eons =
      s.eons.set i (s.eons.getD i 0 + P.eps.getD i 0) := by
  unfold edgeStepPara
  rw [if_pos hfire]
  dsimp only
  split <;> rfl

theorem edgeStepPara_eonns (P : EucKernelArgs) (alpha : ℚ) (n : ℕ)
    (s : EucState) (i : ℕ) (hfire : s.eons.getD i 0 ≤ (n : ℚ)) :
    (edgeStepPara P alpha n s i).eonns =
      (if pyint (((n : ℚ) - s.eonns.getD i 0) / P.epns.getD i 0) ≤ 0 then s.eonns
       else s.eonns.set i (s.eonns.getD i 0 +
         (pyint (((n : ℚ) - s.eonns.getD i 0) / P.epns.getD i 0) : ℚ)
           * P.epns.getD i 0)) := by
  unfold edgeStepPara
  rw [if_pos hfire]
  dsimp only
  split <;> rfl

theorem edgeStepPara_notfire (P : EucKernelArgs) (alpha : ℚ) (n : ℕ)
    (s : EucState) (i : ℕ) (hfire : ¬ s.eons.getD i 0 ≤ (n : ℚ)) :
    edgeStepPara P alpha n s i = s := by
  unfold edgeStepPara
  rw [if_neg hfire]

theorem edgeStepPara_sched (P : EucKernelArgs) (alpha : ℚ) (n : ℕ)
    (s : EucState) (i : ℕ)
    (heps : ∀ x ∈ P.eps, 0 < x) (hepns : ∀ x ∈ P.epns, 0 < x)
    (hi : i < P.eps.length)
    (hinv : schedInv P.eps P.epns s.eons s.eonns n) :
    (∀ t, s.eons.getD t 0 ≤ (edgeStepPara P alpha n s i).eons.getD t 0 ∧
          s.eonns.getD t 0 ≤ (edgeStepPara P alpha n s i).eonns.getD t 0) ∧
      schedInv P.eps P.epns (edgeStepPara P alpha n s i).eons
        (edgeStepPara P alpha n s i).eonns n := by
  by_cases hfire : s.eons.getD i 0 ≤ (n : ℚ)
  · rw [edgeStepPara_eons P alpha n s i hfire, edgeStepPara_eonns P alpha n s i hfire]
    have hcore := euc_sched_core P.eps P.epns s.eons s.eonns n i 0 false
      heps hepns hi hfire hinv
    simpa using hcore
  · rw [edgeStepPara_notfire P alpha n s i hfire]
    exact ⟨fun t => ⟨le_refl _, le_refl _⟩, hinv⟩

theorem foldl_le_inv {σ ι : Type} (f : σ → ι → σ) (le : σ → σ → Prop)
    (inv : σ → Prop)
    (hrefl : ∀ s, le s s)
    (htrans : ∀ a b c, le a b → le b c → le a c) :
    ∀ l : List ι,
      (∀ s x, x ∈ l → inv s → le s (f s x) ∧ inv (f s x)) →
      ∀ s, inv s → le s (l.foldl f s) ∧ inv (l.foldl f s) := by
  intro l
  induction l with
  | nil =>
    intro _ s hs
    exact ⟨hrefl s, hs⟩
  | cons a tl ih =>
    intro hstep s hs
    have h1 := hstep s a (List.mem_cons_self a tl) hs
    have h2 := ih (fun s2 x hx hs2 => hstep s2 x (List.mem_cons_of_mem a hx) hs2)
      (f s a) h1.2
    exact ⟨htrans _ _ _ h1.1 h2.1, h2.2⟩

theorem genEpoch_sched (P : GenArgs) (alpha : ℚ) (n : ℕ) (s : GenState)
    (heps : ∀ x ∈ P.eps, 0 < x) (hepns : ∀ x ∈ P.epns, 0 < x)
    (hinv : schedInv P.eps P.epns s.eons s.eonns n) :
    genLe s (optimize_layout_generic_single_epoch P alpha n s) ∧
      schedInv P.eps P.epns
        (optimize_layout_generic_single_epoch P alpha n s).eons
        (optimize_layout_generic_single_epoch P alpha n s).eonns n :=
  foldl_le_inv (genEdgeStep P alpha n) genLe
    (fun s2 => schedInv P.eps P.epns s2.eons s2.eonns n)
    (fun _ t => ⟨le_refl _, le_refl _⟩)
    (fun _ _ _ h1 h2 t => ⟨le_trans (h1 t).1 (h2 t).1, le_trans (h1 t).2 (h2 t).2⟩)
    (List.range P.eps.length)
    (fun s2 i hi hs2 =>
      genEdgeStep_sched P alpha n s2 i heps hepns (List.mem_range.mp hi) hs2)
    s hinv

theorem invEpoch_sched (P : InvArgs) (alpha : ℚ) (n : ℕ) (s : GenState)
    (heps : ∀ x ∈ P.eps, 0 < x) (hepns : ∀ x ∈ P.epns, 0 < x)
    (hinv : schedInv P.eps P.epns s.eons s.eonns n) :
    genLe s (optimize_layout_inverse_single_epoch P alpha n s) ∧
      schedInv P.eps P.epns
        (optimize_layout_inverse_single_epoch P alpha n s).eons
        (optimize_layout_inverse_single_epoch P alpha n s).eonns n :=
  foldl_le_inv (invEdgeStep P alpha n) genLe
    (fun s2 => schedInv P.eps P.epns s2.eons s2.eonns n)
    (fun _ t => ⟨le_refl _, le_refl _⟩)
    (fun _ _ _ h1 h2 t => ⟨le_trans (h1 t).1 (h2 t).1, le_trans (h1 t).2 (h2 t).2⟩)
    (List.range P.eps.length)
    (fun s2 i hi hs2 =>
      invEdgeStep_sched P alpha n s2 i heps hepns (List.mem_range.mp hi) hs2)
    s hinv

theorem eucSeqEpoch_sched (P : EucKernelArgs) (alpha : ℚ) (n : ℕ)
    (s : EucState)
    (heps : ∀ x ∈ P.eps, 0 < x) (hepns : ∀ x ∈ P.epns, 0 < x)
    (hinv : schedInv P.eps P.epns s.eons s.eonns n) :
    eucLe s (optimize_layout_euclidean_single_epoch P alpha n s) ∧
      schedInv P.eps P.epns
        (optimize_layout_euclidean_single_epoch P alpha n s).eons
        (optimize_layout_euclidean_single_epoch P alpha n s).eonns n :=
  foldl_le_inv (edgeStepSeq P alpha n) eucLe
    (fun s2 => schedInv P.eps P.epns s2.eons s2.eonns n)
    (fun _ t => ⟨le_refl _, le_refl _⟩)
    (fun _ _ _ h1 h2 t => ⟨le_trans (h1 t).1 (h2 t).1, le_trans (h1 t).2 (h2 t).2⟩)
    (List.range P.eps.length)
    (fun s2 i hi hs2 =>
      edgeStepSeq_sched P alpha n s2 i heps hepns (List.mem_range.mp hi) hs2)
    s hinv

theorem eucParaEpoch_sched (P : EucKernelArgs) (alpha : ℚ) (n : ℕ)
    (s : EucState)
    (heps : ∀ x ∈ P.eps, 0 < x) (hepns : ∀ x ∈ P.epns, 0 < x)
    (hinv : schedInv P.eps P.epns s.eons s.eonns n) :
    eucLe s (optimize_layout_euclidean_single_epoch_para P alpha n s) ∧
      schedInv P.eps P.epns
        (optimize_layout_euclidean_single_epoch_para P alpha n s).eons
        (optimize_layout_euclidean_single_epoch_para P alpha n s).eonns n :=
  foldl_le_inv (edgeStepPara P alpha n) eucLe
    (fun s2 => schedInv P.eps P.epns s2.eons s2.eonns n)
    (fun _ t => ⟨le_refl _, le_refl _⟩)
    (fun _ _ _ h1 h2 t => ⟨le_trans (h1 t).1 (h2 t).1, le_trans (h1 t).2 (h2 t).2⟩)
    (List.range P.eps.length)
    (fun s2 i hi hs2 =>
      edgeStepPara_sched P alpha n s2 i heps hepns (List.mem_range.mp hi) hs2)
    s hinv

theorem epns_pos (eps : List ℚ) (r : ℚ) (heps : ∀ x ∈ eps, 0 < x)
    (hr : 0 < r) : ∀ x ∈ eps.map (fun x => x / r), 0 < x := by
  intro x hx
  rcases List.mem_map.mp hx with ⟨y, hy, rfl⟩
  exact div_pos (heps y hy) hr

theorem genRun_sched (P : GenArgs) (ia : ℚ) (nE : ℕ)
    (hE tE : List (List ℚ))
    (heps : ∀ x ∈ P.eps, 0 < x) (hepns : ∀ x ∈ P.epns, 0 < x) :
    ∀ n, genLe (genRunStates P ia nE hE tE n)
      (genRunStates P ia nE hE tE (n + 1)) := by
  have hinvAll : ∀ n, schedInv P.eps P.epns
      (genRunStates P ia nE hE tE n).eons
      (genRunStates P ia nE hE tE n).eonns n := by
    intro n
    induction n with
    | zero => exact fun i => ⟨le_of_eq rfl, Or.inr rfl⟩
    | succ n2 ih =>
      have h2 := genEpoch_sched P (alphaAt ia nE n2) n2
        (genRunStates P ia nE hE tE n2) heps hepns ih
      exact schedInv_succ _ _ _ _ n2 h2.2
  intro n
  exact (genEpoch_sched P (alphaAt ia nE n) n
    (genRunStates P ia nE hE tE n) heps hepns (hinvAll n)).1

theorem invRun_sched (P : InvArgs) (ia : ℚ) (nE : ℕ)
    (hE tE : List (List ℚ))
    (heps : ∀ x ∈ P.eps, 0 < x) (hepns : ∀ x ∈ P.epns, 0 < x) :
    ∀ n, genLe (invRunStates P ia nE hE tE n)
      (invRunStates P ia nE hE tE (n + 1)) := by
  have hinvAll : ∀ n, schedInv P.eps P.epns
      (invRunStates P ia nE hE tE n).eons
      (invRunStates P ia nE hE tE n).eonns n := by
    intro n
    induction n with
    | zero => exact fun i => ⟨le_of_eq rfl, Or.inr rfl⟩
    | succ n2 ih =>
      have h2 := invEpoch_sched P (alphaAt ia nE n2) n2
        (invRunStates P ia nE hE tE n2) heps hepns ih
      exact schedInv_succ _ _ _ _ n2 h2.2
  intro n
  exact (invEpoch_sched P (alphaAt ia nE n) n
    (invRunStates P ia nE hE tE n) heps hepns (hinvAll n)).1

theorem eucRun_sched (A : EucDriverArgs)
    (hookPair :
      Option (ℕ → List ℚ → List ℚ) × Option (ℕ → List ℚ → List ℚ → List ℚ))
    (heps : ∀ x ∈ A.eps, 0 < x) (hr : 0 < A.negativeSampleRate) :
    ∀ n, eucLe (eucRunStates A hookPair n) (eucRunStates A hookPair (n + 1)) := by
  have hepns : ∀ x ∈ A.eps.map (fun x => x / A.negativeSampleRate), 0 < x :=
    epns_pos A.eps A.negativeSampleRate heps hr
  have hstep : ∀ n s, schedInv A.eps
      (A.eps.map (fun x => x / A.negativeSampleRate)) s.eons s.eonns n →
      ∀ e2, eucLe s
        (if A.parallel then
          optimize_layout_euclidean_single_epoch_para
            (eucEpochArgs A hookPair n e2) (alphaAt A.initialAlpha A.nEpochs n) n s
        else
          optimize_layout_euclidean_single_epoch
            (eucEpochArgs A hookPair n e2) (alphaAt A.initialAlpha A.nEpochs n) n s) ∧
        schedInv A.eps (A.eps.map (fun x => x / A.negativeSampleRate))
          (if A.parallel then
            optimize_layout_euclidean_single_epoch_para
              (eucEpochArgs A hookPair n e2) (alphaAt A.initialAlpha A.nEpochs n) n s
          else
            optimize_layout_euclidean_single_epoch
              (eucEpochArgs A hookPair n e2) (alphaAt A.initialAlpha A.nEpochs n) n s).eons
          (if A.parallel then
            optimize_layout_euclidean_single_epoch_para
              (eucEpochArgs A hookPair n e2) (alphaAt A.initialAlpha A.nEpochs n) n s
          else
            optimize_layout_euclidean_single_epoch
              (eucEpochArgs A hookPair n e2) (alphaAt A.initialAlpha A.nEpochs n) n s).eonns n := by
    intro n s hs e2
    by_cases hpar : A.parallel
    · simp only [hpar, if_true]
      exact eucParaEpoch_sched (eucEpochArgs A hookPair n e2)
        (alphaAt A.initialAlpha A.nEpochs n) n s heps hepns hs
    · simp only [hpar, if_false]
      exact eucSeqEpoch_sched (eucEpochArgs A hookPair n e2)
        (alphaAt A.initialAlpha A.nEpochs n) n s heps hepns hs
  have hinvAll : ∀ n, schedInv A.eps
      (A.eps.map (fun x => x / A.negativeSampleRate))
      (eucRunStates A hookPair n).eons (eucRunStates A hookPair n).eonns n := by
    intro n
    induction n with
    | zero => exact fun i => ⟨le_of_eq rfl, Or.inr rfl⟩
    | succ n2 ih =>
      have h2 := (hstep n2 (eucRunStates A hookPair n2) ih
        (eucRunStates A hookPair n2).emb).2
      exact schedInv_succ _ _ _ _ n2 h2
  intro n
  have h2 := (hstep n (eucRunStates A hookPair n) (hinvAll n)
    (eucRunStates A hookPair n).emb).1
  exact h2

theorem schedInvA_succ (eps epns eons eonns : List (List ℚ)) (n : ℕ)
    (h : schedInvA eps epns eons eonns n) :
    schedInvA eps epns eons eonns (n + 1) := by
  refine ⟨h.1, fun m i => ⟨(h.2 m i).1, ?_⟩⟩
  rcases (h.2 m i).2 with h2 | h2
  · left
    have h3 : ((n : ℚ)) ≤ ((n + 1 : ℕ) : ℚ) := by push_cast; linarith
    linarith
  · right
    exact h2

theorem outer_set_mono (ll : List (List ℚ)) (m : ℕ) (L : List ℚ)
    (hmono : ∀ t, (ll.getD m []).getD t 0 ≤ L.getD t 0) :
    ∀ m2 i2, (ll.getD m2 []).getD i2 0 ≤ ((ll.set m L).getD m2 []).getD i2 0 := by
  intro m2 i2
  by_cases hm : m = m2
  · subst hm
    rcases lt_or_le m ll.length with h1 | h1
    · rw [getD_set_self ll m L [] h1]
      exact hmono i2
    · rw [List.set_eq_of_length_le h1]
  · rw [getD_set_ne ll m m2 L [] hm]

theorem alignedEdgeStep_eons (P : AlgArgs) (alpha : ℚ) (n nEmb w : ℕ)
    (s : AlgState) (i m : ℕ)
    (hfire : i < (s.eons.getD m []).length ∧
      (s.eons.getD m []).getD i 0 ≤ (n : ℚ)) :
    (alignedEdgeStep P alpha n nEmb w s i m).eons =
      s.eons.set m ((s.eons.getD m []).set i
        ((s.eons.getD m []).getD i 0 + (P.eps.getD m []).getD i 0)) := by
  unfold alignedEdgeStep
  rw [if_pos hfire]

theorem alignedEdgeStep_eonns (P : AlgArgs) (alpha : ℚ) (n nEmb w : ℕ)
    (s : AlgState) (i m : ℕ)
    (hfire : i < (s.eons.getD m []).length ∧
      (s.eons.getD m []).getD i 0 ≤ (n : ℚ)) :
    (alignedEdgeStep P alpha n nEmb w s i m).eonns =
      s.eonns.set m ((s.eonns.getD m []).set i
        ((s.eonns.getD m []).getD i 0 +
          (((if (P.epns.getD m []).getD i 0 > 0 then
              pyint (((n : ℚ) - (s.eonns.getD m []).getD i 0)
                / (P.epns.getD m []).getD i 0)
            else 0) : ℤ) : ℚ) * (P.epns.getD m []).getD i 0)) := by
  unfold alignedEdgeStep
  rw [if_pos hfire]

theorem alignedEdgeStep_notfire (P : AlgArgs) (alpha : ℚ) (n nEmb w : ℕ)
    (s : AlgState) (i m : ℕ)
    (hfire : ¬ (i < (s.eons.getD m []).length ∧
      (s.eons.getD m []).getD i 0 ≤ (n : ℚ))) :
    alignedEdgeStep P alpha n nEmb w s i m = s := by
  unfold alignedEdgeStep
  rw [if_neg hfire]

theorem alignedEdgeStep_sched (P : AlgArgs) (alpha : ℚ) (n nEmb w : ℕ)
    (s : AlgState) (i m : ℕ)
    (heps : ∀ l ∈ P.eps, ∀ x ∈ l, 0 < x)
    (hepns : ∀ l ∈ P.epns, ∀ x ∈ l, 0 < x)
    (hinv : schedInvA P.eps P.epns s.eons s.eonns n) :
    algLe s (alignedEdgeStep P alpha n nEmb w s i m) ∧
      schedInvA P.eps P.epns (alignedEdgeStep P alpha n nEmb w s i m).eons
        (alignedEdgeStep P alpha n nEmb w s i m).eonns n := by
  by_cases hfire : i < (s.eons.getD m []).length ∧
      (s.eons.getD m []).getD i 0 ≤ (n : ℚ)
  · obtain ⟨hilen, hle⟩ := hfire
    have heqEons := alignedEdgeStep_eons P alpha n nEmb w s i m ⟨hilen, hle⟩
    have heqEonns := alignedEdgeStep_eonns P alpha n nEmb w s i m ⟨hilen, hle⟩
    have hlenm : (s.eons.getD m []).length = (P.eps.getD m []).length := hinv.1 m
    have hieps : i < (P.eps.getD m []).length := by
      rw [← hlenm]
      exact hilen
    have hmeps : m < P.eps.length := by
      by_contra hm
      push_neg at hm
      rw [getD_default_of_le_length P.eps m [] hm] at hieps
      simp at hieps
    have hepsmi : 0 < (P.eps.getD m []).getD i 0 :=
      getD_pos_of_forall_pos _ (heps _ (getD_mem P.eps m [] hmeps)) i hieps
    have hdom := (hinv.2 m i).1
    have hn : 1 ≤ n := by
      have h2 : (0 : ℚ) < (n : ℚ) := by linarith
      exact_mod_cast Nat.one_le_iff_ne_zero.mpr (by
        intro h0
        rw [h0] at h2
        simp at h2)
    have hkey : 0 ≤ (((if (P.epns.getD m []).getD i 0 > 0 then
          pyint (((n : ℚ) - (s.eonns.getD m []).getD i 0)
            / (P.epns.getD m []).getD i 0)
        else 0) : ℤ) : ℚ) * (P.epns.getD m []).getD i 0 ∧
        ((s.eonns.getD m []).getD i 0 +
            (((if (P.epns.getD m []).getD i 0 > 0 then
                pyint (((n : ℚ) - (s.eonns.getD m []).getD i 0)
                  / (P.epns.getD m []).getD i 0)
              else 0) : ℤ) : ℚ) * (P.epns.getD m []).getD i 0 ≤ (n : ℚ) ∨
          (((if (P.epns.getD m []).getD i 0 > 0 then
              pyint (((n : ℚ) - (s.eonns.getD m []).getD i 0)
                / (P.epns.getD m []).getD i 0)
            else 0) : ℤ) : ℚ) * (P.epns.getD m []).getD i 0 = 0) := by
      by_cases hp2 : (P.epns.getD m []).getD i 0 > 0
      · rw [if_pos hp2]
        have hk := sched_nneg_key n ((s.eonns.getD m []).getD i 0)
          ((P.epns.getD m []).getD i 0) hp2 hn (hinv.2 m i).2
        constructor
        · exact mul_nonneg (by exact_mod_cast hk.1) (le_of_lt hp2)
        · rcases hk.2 with h3 | h3
          · right
            rw [h3]
            simp
          · left
            exact h3
      · rw [if_neg hp2]
        constructor
        · simp
        · right
          simp
    constructor
    · intro m2 i2
      constructor
      · rw [heqEons]
        exact outer_set_mono s.eons m _
          (set_add_nonneg_mono (s.eons.getD m []) i _ (le_of_lt hepsmi)) m2 i2
      · rw [heqEonns]
        exact outer_set_mono s.eonns m _
          (set_add_nonneg_mono (s.eonns.getD m []) i _ hkey.1) m2 i2
    · refine ⟨?_, ?_⟩
      · intro m2
        rw [heqEons]
        by_cases hm : m = m2
        · subst hm
          rcases lt_or_le m s.eons.length with h1 | h1
          · rw [getD_set_self s.eons m _ [] h1, List.length_set]
            exact hinv.1 m
          · rw [List.set_eq_of_length_le h1]
            exact hinv.1 m
        · rw [getD_set_ne s.eons m m2 _ [] hm]
          exact hinv.1 m2
      · intro m2 i2
        constructor
        · rw [heqEons]
          exact le_trans (hinv.2 m2 i2).1
            (outer_set_mono s.eons m _
              (set_add_nonneg_mono (s.eons.getD m []) i _ (le_of_lt hepsmi)) m2 i2)
        · rw [heqEonns]
          by_cases hm : m = m2
          · subst hm
            rcases lt_or_le m s.eonns.length with h1 | h1
            · rw [getD_set_self s.eonns m _ [] h1]
              by_cases hii : i = i2
              · subst hii
                rcases lt_or_le i (s.eonns.getD m []).length with h2 | h2
                · rw [getD_set_self (s.eonns.getD m []) i _ 0 h2]
                  rcases hkey.2 with h3 | h3
                  · left
                    exact h3
                  · rw [h3]
                    simpa using (hinv.2 m i).2
                · rw [List.set_eq_of_length_le h2]
                  exact (hinv.2 m i).2
              · rw [getD_set_ne (s.eonns.getD m []) i i2 _ 0 hii]
                exact (hinv.2 m i2).2
            · rw [List.set_eq_of_length_le h1]
              exact (hinv.2 m i2).2
          · rw [getD_set_ne s.eonns m m2 _ [] hm]
            exact (hinv.2 m2 i2).2
  · rw [alignedEdgeStep_notfire P alpha n nEmb w s i m hfire]
    exact ⟨fun m2 i2 => ⟨le_refl _, le_refl _⟩, hinv⟩

theorem alignedEpoch_sched (P : AlgArgs) (alpha : ℚ) (n : ℕ) (s : AlgState)
    (heps : ∀ l ∈ P.eps, ∀ x ∈ l, 0 < x)
    (hepns : ∀ l ∈ P.epns, ∀ x ∈ l, 0 < x)
    (hinv : schedInvA P.eps P.epns s.eons s.eonns n) :
    algLe s (optimize_layout_aligned_euclidean_single_epoch P alpha n s) ∧
      schedInvA P.eps P.epns
        (optimize_layout_aligned_euclidean_single_epoch P alpha n s).eons
        (optimize_layout_aligned_euclidean_single_epoch P alpha n s).eonns
        n := by
  have hrefl : ∀ s2 : AlgState, algLe s2 s2 := fun _ m i => ⟨le_refl _, le_refl _⟩
  have htrans : ∀ a b c : AlgState, algLe a b → algLe b c → algLe a c :=
    fun a b c h1 h2 m i =>
      ⟨le_trans (h1 m i).1 (h2 m i).1, le_trans (h1 m i).2 (h2 m i).2⟩
  have hinner : ∀ (i : ℕ) (s1 : AlgState),
      schedInvA P.eps P.epns s1.eons s1.eonns n →
      algLe s1 ((P.embOrder n).foldl
        (fun s2 m => alignedEdgeStep P alpha n P.heads.length
          (((P.relations.getD 0 []).length - 1) / 2) s2 i m) s1) ∧
      schedInvA P.eps P.epns
        ((P.embOrder n).foldl
          (fun s2 m => alignedEdgeStep P alpha n P.heads.length
            (((P.relations.getD 0 []).length - 1) / 2) s2 i m) s1).eons
        ((P.embOrder n).foldl
          (fun s2 m => alignedEdgeStep P alpha n P.heads.length
            (((P.relations.getD 0 []).length - 1) / 2) s2 i m) s1).eonns n :=
    fun i s1 hs1 =>
      foldl_le_inv
        (fun s2 m => alignedEdgeStep P alpha n P.heads.length
          (((P.relations.getD 0 []).length - 1) / 2) s2 i m)
        algLe (fun s2 => schedInvA P.eps P.epns s2.eons s2.eonns n)
        hrefl htrans (P.embOrder n)
        (fun s2 m _ hs2 => alignedEdgeStep_sched P alpha n P.heads.length
          (((P.relations.getD 0 []).length - 1) / 2) s2 i m heps hepns hs2)
        s1 hs1
  have heq : optimize_layout_aligned_euclidean_single_epoch P alpha n s =
      (List.range
        (P.eps.foldl (fun mx l => if l.length ≥ mx then l.length else mx) 0)).foldl
        (fun s1 i => (P.embOrder n).foldl
          (fun s2 m => alignedEdgeStep P alpha n P.heads.length
            (((P.relations.getD 0 []).length - 1) / 2) s2 i m) s1) s := rfl
  rw [heq]
  have hfin := foldl_le_inv
    (fun s1 i => (P.embOrder n).foldl
      (fun s2 m => alignedEdgeStep P alpha n P.heads.length
        (((P.relations.getD 0 []).length - 1) / 2) s2 i m) s1)
    algLe (fun s2 => schedInvA P.eps P.epns s2.eons s2.eonns n)
    hrefl htrans
    (List.range (P.eps.foldl (fun mx l => if l.length ≥ mx then l.length else mx) 0))
    (fun s1 i _ hs1 => hinner i s1 hs1) s hinv
  exact hfin

theorem alignedRun_sched (P : AlgArgs) (ia : ℚ) (nE : ℕ)
    (hEs tEs : List (List (List ℚ)))
    (heps : ∀ l ∈ P.eps, ∀ x ∈ l, 0 < x)
    (hepns : ∀ l ∈ P.epns, ∀ x ∈ l, 0 < x) :
    ∀ n, algLe (alignedRunStates P ia nE hEs tEs n)
      (alignedRunStates P ia nE hEs tEs (n + 1)) := by
  have hinvAll : ∀ n, schedInvA P.eps P.epns
      (alignedRunStates P ia nE hEs tEs n).eons
      (alignedRunStates P ia nE hEs tEs n).eonns n := by
    intro n
    induction n with
    | zero => exact ⟨fun m => rfl, fun m i => ⟨le_of_eq rfl, Or.inr rfl⟩⟩
    | succ n2 ih =>
      have h2 := alignedEpoch_sched P (alphaAt ia nE n2) n2
        (alignedRunStates P ia nE hEs tEs n2) heps hepns ih
      exact schedInvA_succ _ _ _ _ n2 h2.2
  intro n
  exact (alignedEpoch_sched P (alphaAt ia nE n) n
    (alignedRunStates P ia nE hEs tEs n) heps hepns (hinvAll n)).1

/-- C2: for every run of any kernel variant — the euclidean driver
trajectory (sequential or parallel, as selected by `A.parallel`), the
generic kernel, the inverse kernel and the aligned kernel — and every
edge, the values of `epoch_of_next_sample` and
`epoch_of_next_negative_sample` observed across the epoch loop are
monotonically non-decreasing, under the data-model invariants that every
`epochs_per_sample` entry is positive and (for the euclidean driver)
`negative_sample_rate` is positive, respectively that every
`epochs_per_negative_sample` entry is positive. -/
theorem c2_schedules_monotone
    (AE : EucDriverArgs)
    (hookPair :
      Option (ℕ → List ℚ → List ℚ) × Option (ℕ → List ℚ → List ℚ → List ℚ))
    (PG : GenArgs) (PI : InvArgs) (PA : AlgArgs)
    (iaG iaI iaA : ℚ) (nEG nEI nEA : ℕ)
    (hEG tEG hEI tEI : List (List ℚ)) (hEA tEA : List (List (List ℚ)))
    (hE1 : ∀ x ∈ AE.eps, 0 < x) (hE2 : 0 < AE.negativeSampleRate)
    (hG1 : ∀ x ∈ PG.eps, 0 < x) (hG2 : ∀ x ∈ PG.epns, 0 < x)
    (hI1 : ∀ x ∈ PI.eps, 0 < x) (hI2 : ∀ x ∈ PI.epns, 0 < x)
    (hA1 : ∀ l ∈ PA.eps, ∀ x ∈ l, 0 < x)
    (hA2 : ∀ l ∈ PA.epns, ∀ x ∈ l, 0 < x) :
    (∀ n, eucLe (eucRunStates AE hookPair n) (eucRunStates AE hookPair (n + 1))) ∧
    (∀ n, genLe (genRunStates PG iaG nEG hEG tEG n)
      (genRunStates PG iaG nEG hEG tEG (n + 1))) ∧
    (∀ n, genLe (invRunStates PI iaI nEI hEI tEI n)
      (invRunStates PI iaI nEI hEI tEI (n + 1))) ∧
    (∀ n, algLe (alignedRunStates PA iaA nEA hEA tEA n)
      (alignedRunStates PA iaA nEA hEA tEA (n + 1))) :=
  ⟨eucRun_sched AE hookPair hE1 hE2,
   genRun_sched PG iaG nEG hEG tEG hG1 hG2,
   invRun_sched PI iaI nEI hEI tEI hI1 hI2,
   alignedRun_sched PA iaA nEA hEA tEA hA1 hA2⟩

/-- Witness for C2 at concrete configurations of all four variants. -/
theorem c2_schedules_monotone_witness :
    ((∀ x ∈ c2EucArgs.eps, 0 < x) ∧ 0 < c2EucArgs.negativeSampleRate ∧
      (∀ x ∈ c2GenArgs.eps, 0 < x) ∧ (∀ x ∈ c2GenArgs.epns, 0 < x) ∧
      (∀ x ∈ c2InvArgs.eps, 0 < x) ∧ (∀ x ∈ c2InvArgs.epns, 0 < x) ∧
      (∀ l ∈ c2AlgArgs.eps, ∀ x ∈ l, 0 < x) ∧
      (∀ l ∈ c2AlgArgs.epns, ∀ x ∈ l, 0 < x)) ∧
    ((∀ n, eucLe (eucRunStates c2EucArgs (none, none) n)
        (eucRunStates c2EucArgs (none, none) (n + 1))) ∧
      (∀ n, genLe (genRunStates c2GenArgs 1 3 [[0], [1]] [[0], [1]] n)
        (genRunStates c2GenArgs 1 3 [[0], [1]] [[0], [1]] (n + 1))) ∧
      (∀ n, genLe (invRunStates c2InvArgs 1 3 [[0], [1]] [[0], [1]] n)
        (invRunStates c2InvArgs 1 3 [[0], [1]] [[0], [1]] (n + 1))) ∧
      (∀ n, algLe (alignedRunStates c2AlgArgs 1 3 [[[0]]] [[[1]]] n)
        (alignedRunStates c2AlgArgs 1 3 [[[0]]] [[[1]]] (n + 1)))) := by
  have h1 : ∀ x ∈ c2EucArgs.eps, 0 < x := by with_unfolding_all decide
  have h2 : (0 : ℚ) < c2EucArgs.negativeSampleRate := by with_unfolding_all decide
  have h3 : ∀ x ∈ c2GenArgs.eps, 0 < x := by with_unfolding_all decide
  have h4 : ∀ x ∈ c2GenArgs.epns, 0 < x := by with_unfolding_all decide
  have h5 : ∀ x ∈ c2InvArgs.eps, 0 < x := by with_unfolding_all decide
  have h6 : ∀ x ∈ c2InvArgs.epns, 0 < x := by with_unfolding_all decide
  have h7 : ∀ l ∈ c2AlgArgs.eps, ∀ x ∈ l, 0 < x := by with_unfolding_all decide
  have h8 : ∀ l ∈ c2AlgArgs.epns, ∀ x ∈ l, 0 < x := by with_unfolding_all decide
  exact ⟨⟨h1, h2, h3, h4, h5, h6, h7, h8⟩,
    c2_schedules_monotone c2EucArgs (none, none) c2GenArgs c2InvArgs c2AlgArgs
      1 1 1 3 3 3 [[0], [1]] [[0], [1]] [[0], [1]] [[0], [1]] [[[0]]] [[[1]]]
      h1 h2 h3 h4 h5 h6 h7 h8⟩

/-- C1 counterexample: with `move_other` enabled, the firing of edge 0
(due, since `epoch_of_next_sample[0] = 0 <= 0`) also changes
`epoch_of_next_sample[1]` (from 10 to 11, `tail[0] = 1`), so the firing
of edge `i` does not change only entry `i` of the schedule arrays. -/
theorem c1_counterexample :
    c1S.eons.getD 0 0 ≤ ((0 : ℕ) : ℚ) ∧
      (edgeStepSeq c1P 1 0 c1S 0).eons.getD 1 0 ≠ c1S.eons.getD 1 0 := by
  constructor
  · with_unfolding_all decide
  · with_unfolding_all decide

/-- C1 (amended): in the sequential euclidean kernel, edge `i` fires at
epoch `n` iff `epoch_of_next_sample[i] <= n` — a non-firing edge leaves
the whole state untouched.  On firing, entry `i` of
`epoch_of_next_sample` is incremented by `epochs_per_sample[i]`, entry
`i` is the only entry of `epoch_of_next_negative_sample` that can change
(it changes exactly when `n_neg_samples > 0`, by
`n_neg_samples * epochs_per_negative_sample[i]`), and when `move_other`
is off no other `epoch_of_next_sample` entry changes; but when
`move_other` is on, line 484 additionally increments entry `tail[i]` of
`epoch_of_next_sample` by `epochs_per_sample[tail[i]]`. -/
theorem c1_edge_firing_schedule (P : EucKernelArgs) (alpha : ℚ) (n : ℕ)
    (s : EucState) (i : ℕ) :
    (¬ s.eons.getD i 0 ≤ (n : ℚ) → edgeStepSeq P alpha n s i = s) ∧
    (s.eons.getD i 0 ≤ (n : ℚ) →
      (∀ j, j ≠ i →
        (edgeStepSeq P alpha n s i).eonns.getD j 0 = s.eonns.getD j 0) ∧
      (pyint (((n : ℚ) - s.eonns.getD i 0) / P.epns.getD i 0) ≤ 0 →
        (edgeStepSeq P alpha n s i).eonns = s.eonns) ∧
      (¬ pyint (((n : ℚ) - s.eonns.getD i 0) / P.epns.getD i 0) ≤ 0 →
        i < s.eonns.length →
        (edgeStepSeq P alpha n s i).eonns.getD i 0 =
          s.eonns.getD i 0 +
            (pyint (((n : ℚ) - s.eonns.getD i 0) / P.epns.getD i 0) : ℚ)
              * P.epns.getD i 0) ∧
      (P.moveOther = false → i < s.eons.length →
        (edgeStepSeq P alpha n s i).eons.getD i 0 =
          s.eons.getD i 0 + P.eps.getD i 0) ∧
      (P.moveOther = false → ∀ j, j ≠ i →
        (edgeStepSeq P alpha n s i).eons.getD j 0 = s.eons.getD j 0) ∧
      (P.moveOther = true → ∀ j, j ≠ i → j ≠ P.tail.getD i 0 →
        (edgeStepSeq P alpha n s i).eons.getD j 0 = s.eons.getD j 0) ∧
      (P.moveOther = true → P.tail.getD i 0 ≠ i → i < s.eons.length →
        (edgeStepSeq P alpha n s i).eons.getD i 0 =
          s.eons.getD i 0 + P.eps.getD i 0) ∧
      (P.moveOther = true → P.tail.getD i 0 ≠ i →
        P.tail.getD i 0 < s.eons.length →
        (edgeStepSeq P alpha n s i).eons.getD (P.tail.getD i 0) 0 =
          s.eons.getD (P.tail.getD i 0) 0 +
            P.eps.getD (P.tail.getD i 0) 0)) := by
  constructor
  · intro hfire
    exact edgeStepSeq_notfire P alpha n s i hfire
  · intro hfire
    have heonns := edgeStepSeq_eonns P alpha n s i hfire
    have heons := edgeStepSeq_eons P alpha n s i hfire
    refine ⟨?_, ?_, ?_, ?_, ?_, ?_, ?_, ?_⟩
    · intro j hj
      rw [heonns]
      split
      · rfl
      · exact getD_set_ne s.eonns i j _ 0 (fun h => hj h.symm)
    · intro hneg
      rw [heonns, if_pos hneg]
    · intro hneg hlen
      rw [heonns, if_neg hneg, getD_set_self s.eonns i _ 0 hlen]
    · intro hmo hlen
      rw [heons, hmo]
      simp only [Bool.false_eq_true, if_false]
      rw [getD_set_self s.eons i _ 0 hlen]
    · intro hmo j hj
      rw [heons, hmo]
      simp only [Bool.false_eq_true, if_false]
      exact getD_set_ne s.eons i j _ 0 (fun h => hj h.symm)
    · intro hmo j hj hjt
      rw [heons, hmo]
      simp only [if_true]
      rw [getD_set_ne _ i j _ 0 (fun h => hj h.symm),
        getD_set_ne s.eons (P.tail.getD i 0) j _ 0 (fun h => hjt h.symm)]
    · intro hmo ht hlen
      rw [heons, hmo]
      simp only [if_true]
      rw [getD_set_self _ i _ 0 (by rw [List.length_set]; exact hlen),
        getD_set_ne s.eons (P.tail.getD i 0) i _ 0 ht]
    · intro hmo ht hlen
      rw [heons, hmo]
      simp only [if_true]
      rw [getD_set_ne _ i (P.tail.getD i 0) _ 0 (fun h => ht h.symm),
        getD_set_self s.eons (P.tail.getD i 0) _ 0 hlen]

/-- Witness for C1's amended statement: at the concrete firing of edge 0
(`move_other` on, `tail[0] = 1`), the negative schedule is untouched
(`n_neg_samples <= 0` here) and both affected attractive entries take the
coded increments, while edge 1 is not due and leaves the state alone. -/
theorem c1_edge_firing_schedule_witness :
    (¬ c1S.eons.getD 1 0 ≤ ((0 : ℕ) : ℚ) ∧
      edgeStepSeq c1P 1 0 c1S 1 = c1S) ∧
    (c1S.eons.getD 0 0 ≤ ((0 : ℕ) : ℚ) ∧
      (edgeStepSeq c1P 1 0 c1S 0).eonns = c1S.eonns ∧
      (edgeStepSeq c1P 1 0 c1S 0).eons.getD 0 0 =
        c1S.eons.getD 0 0 + c1P.eps.getD 0 0 ∧
      (edgeStepSeq c1P 1 0 c1S 0).eons.getD 1 0 =
        c1S.eons.getD 1 0 + c1P.eps.getD 1 0) := by
  have h := c1_edge_firing_schedule c1P 1 0 c1S 0
  have hfire : c1S.eons.getD 0 0 ≤ ((0 : ℕ) : ℚ) := by with_unfolding_all decide
  have h2 := h.2 hfire
  refine ⟨⟨by with_unfolding_all decide, (c1_edge_firing_schedule c1P 1 0 c1S 1).1 (by with_unfolding_all decide)⟩,
    hfire, h2.2.1 (by with_unfolding_all decide), ?_, ?_⟩
  · exact h2.2.2.2.2.2.2.1 (by with_unfolding_all decide)
      (by with_unfolding_all decide) (by with_unfolding_all decide)
  · exact h2.2.2.2.2.2.2.2 (by with_unfolding_all decide)
      (by with_unfolding_all decide) (by with_unfolding_all decide)

/-- C3 counterexample: with `initial_alpha = 1` and `n_epochs = 2`, the
learning rate in force during epoch 1 is `1` (the assignment at the end
of epoch 0, line 1640, is `initial_alpha*(1 - 0/2)`), not the claimed
`initial_alpha*(1 - 1/2) = 1/2`. -/
theorem c3_counterexample : alphaAt 1 2 1 ≠ 1 * (1 - (1 : ℚ) / 2) := by
  with_unfolding_all decide

/-- C3 (amended): the learning rate in force during epoch 0 is
`initial_alpha`, and during epoch `n+1` it is
`initial_alpha*(1 - n/n_epochs)` — one epoch behind the schedule the
spec claims.  For `initial_alpha > 0` the alpha used at every epoch
`n <= n_epochs` is strictly positive: it never reaches 0 inside the
loop, and even the value assigned after the final epoch
(`initial_alpha*(1-(n_epochs-1)/n_epochs) = initial_alpha/n_epochs`) is
positive. -/
theorem c3_alpha_anneal (ia : ℚ) (E : ℕ) :
    alphaAt ia E 0 = ia ∧
    (∀ n : ℕ, alphaAt ia E (n + 1) = ia * (1 - (n : ℚ) / (E : ℚ))) ∧
    (0 < ia → ∀ n : ℕ, n ≤ E → 0 < alphaAt ia E n) := by
  refine ⟨rfl, fun n => rfl, ?_⟩
  intro hia n hn
  cases n with
  | zero => simpa [alphaAt] using hia
  | succ m =>
    show 0 < ia * (1 - (m : ℚ) / (E : ℚ))
    have hEpos : 0 < E := lt_of_lt_of_le (Nat.succ_pos m) hn
    have hmE : (m : ℚ) < (E : ℚ) := by exact_mod_cast Nat.lt_of_succ_le hn
    have hEq : (0 : ℚ) < (E : ℚ) := by exact_mod_cast hEpos
    have hdiv : (m : ℚ) / (E : ℚ) < 1 := (div_lt_one hEq).mpr hmE
    have h1 : 0 < 1 - (m : ℚ) / (E : ℚ) := by linarith
    exact mul_pos hia h1

/-- Witness for C3's amended statement at `initial_alpha = 1`,
`n_epochs = 2`, epoch 1. -/
theorem c3_alpha_anneal_witness :
    (0 : ℚ) < 1 ∧ (1 : ℕ) ≤ 2 ∧ 0 < alphaAt 1 2 1 := by
  refine ⟨by norm_num, by norm_num, ?_⟩
  exact (c3_alpha_anneal 1 2).2.2 (by norm_num) 1 (by norm_num)

theorem foldl_id (l : List ℕ) (a : ℚ) : l.foldl (fun r _ => r) a = a := by
  induction l generalizing a with
  | nil => rfl
  | cons b t ih => simpa using ih a

theorem rdist_self (x : List ℚ) : rdist x x = 0 := by
  unfold rdist
  simp only [sub_self, zero_mul, mul_zero, add_zero]
  exact foldl_id _ 0

theorem foldl_row_invariant (q : ℕ) (F : List (List ℚ) → ℕ → List (List ℚ))
    (hF : ∀ e d, (F e d).getD q [] = e.getD q []) (l : List ℕ)
    (e : List (List ℚ)) : (l.foldl F e).getD q [] = e.getD q [] := by
  induction l generalizing e with
  | nil => rfl
  | cons a t ih => rw [List.foldl_cons, ih (F e a), hF e a]

theorem eset_row_ne (e : List (List ℚ)) (i d : ℕ) (v : ℚ) (q : ℕ)
    (h : i ≠ q) : (eset e i d v).getD q [] = e.getD q [] :=
  getD_set_ne e i q _ [] h

theorem applyClipGrad_row_ne (dim : ℕ) (alpha : ℚ) (e : List (List ℚ))
    (j : ℕ) (g : List ℚ) (q : ℕ) (h : j ≠ q) :
    (applyClipGrad dim alpha e j g).getD q [] = e.getD q [] :=
  foldl_row_invariant q _ (fun e2 d => eset_row_ne e2 j d _ q h)
    (List.range dim) e

theorem attrLoop_row_ne (dim : ℕ) (alpha gc : ℚ) (e : List (List ℚ))
    (j k : ℕ) (q : ℕ) (h : j ≠ q) :
    (attrLoop dim alpha gc e j k).getD q [] = e.getD q [] :=
  foldl_row_invariant q _ (fun e2 d => eset_row_ne e2 j d _ q h)
    (List.range dim) e

theorem pushLoop_row_ne (dim : ℕ) (alpha : ℚ) (e : List (List ℚ))
    (j : ℕ) (q : ℕ) (h : j ≠ q) :
    (pushLoop dim alpha e j).getD q [] = e.getD q [] :=
  foldl_row_invariant q _ (fun e2 d => eset_row_ne e2 j d _ q h)
    (List.range dim) e

theorem applyIdxPt_row_ne (h : Hooks) (e : List (List ℚ)) (j q : ℕ)
    (hq : j ≠ q) : (applyIdxPt h e j).getD q [] = e.getD q [] := by
  unfold applyIdxPt
  cases h.idxPt with
  | none => rfl
  | some f => exact getD_set_ne e j q _ [] hq

theorem applyPtHook_row_ne (h : Hooks) (e : List (List ℚ)) (j q : ℕ)
    (hq : j ≠ q) : (applyPtHook h e j).getD q [] = e.getD q [] := by
  unfold applyPtHook
  cases h.pt with
  | none => rfl
  | some f => exact getD_set_ne e j q _ [] hq

theorem negApply_row_ne (P : EucKernelArgs) (alpha : ℚ) (j kp : ℕ)
    (gc : ℚ) (e : List (List ℚ)) (q : ℕ) (hq : j ≠ q) :
    (negApply P alpha j kp gc e).getD q [] = e.getD q [] := by
  unfold negApply
  rw [applyPtHook_row_ne P.hooks _ j q hq, applyIdxPt_row_ne P.hooks _ j q hq]
  split
  · exact applyClipGrad_row_ne P.dim alpha e j _ q hq
  · split
    · exact attrLoop_row_ne P.dim alpha gc e j kp q hq
    · exact pushLoop_row_ne P.dim alpha e j q hq

/-- C6: a negative-sample update of the Euclidean kernel never moves the
sampled partner vertex: row `kp` of the (aliased) embedding is unchanged
by `negSampleUpd`.  When `kp` differs from the current vertex `j`, every
write of the update lands in row `j`; when `kp = j` the distance is zero
and the sample is skipped entirely (`continue`).  The update does not
consult `move_other` at all (the symmetric branch in the source, lines
534-590, is dead code under `if False:`), so the conclusion holds for
every `P`, in particular for both values of `P.moveOther` and for
arbitrary constraint hooks. -/
theorem c6_negative_sample_partner_fixed (P : EucKernelArgs) (alpha : ℚ)
    (j kp : ℕ) (e : List (List ℚ)) :
    (negSampleUpd P alpha j kp e).getD kp [] = e.getD kp [] := by
  by_cases hjk : j = kp
  · subst hjk
    unfold negSampleUpd
    dsimp only
    rw [rdist_self]
    simp
  · unfold negSampleUpd
    dsimp only
    split
    · exact negApply_row_ne P alpha j kp _ e kp hjk
    · exact negApply_row_ne P alpha j kp 0 e kp hjk

/-- C5: both Euclidean kernels assert
`np.all(head_embedding == tail_embedding)` on entry (lines 385-388 and
673-674); when `head_embedding` and `tail_embedding` are distinct arrays
with different contents (the docstring's "embed new points with respect
to an existing embedding" case, lines 1016-1021), the assertion fails
and the kernel aborts with `AssertionError` instead of running. -/
theorem c5_assert_rejects_distinct_embeddings :
    opt_euclidean_checked c5P 1 0 [[0, 0]] [[1, 1]] [1] [1] 0 =
      Except.error PyError.assertionError ∧
    opt_euclidean_para_checked c5P 1 0 [[0, 0]] [[1, 1]] [1] [1] 0 =
      Except.error PyError.assertionError := by
  constructor
  · with_unfolding_all rfl
  · with_unfolding_all rfl

/-- C4 counterexample: with `n_epochs = 0` but a `final_pt` output
constraint registered, the returned embedding (`[[2]]`) differs from the
input (`[[1]]`): `final_pt` is applied unconditionally after the loop
(lines 1645-1646), also when no epoch ran. -/
theorem c4_counterexample :
    optimize_layout_euclidean c4Args = Except.ok [[2]] ∧
      c4Args.headEmbedding = [[1]] ∧
      ([[2]] : List (List ℚ)) ≠ [[1]] := by
  refine ⟨by with_unfolding_all rfl, rfl, by with_unfolding_all decide⟩

/-- C4 (amended): with `n_epochs = 0` and no `final_pt` output
constraint, `optimize_layout_euclidean` returns exactly the head
embedding it was handed — the source returns the `head_embedding`
reference itself (the "same storage" part of the claim), which the
functional model renders as the threaded embedding value, here returned
unchanged.  With a `final_pt` hook the contents may change even for
`n_epochs = 0`. -/
theorem c4_zero_epochs_identity (A : EucDriverArgs) (h0 : A.nEpochs = 0)
    (hf : A.outputConstrain.finalPt = none) (r : List (List ℚ))
    (hr : optimize_layout_euclidean A = Except.ok r) :
    r = A.headEmbedding := by
  unfold optimize_layout_euclidean at hr
  rcases hpm : processPinMask A.pinMask A.headEmbedding with e | hp
  · rw [hpm] at hr
    cases hr
  · rw [hpm] at hr
    rw [h0] at hr
    unfold eucDriverLoop at hr
    rw [hf] at hr
    cases hr
    rfl

/-- Witness for C4's amended statement at a concrete zero-epoch run. -/
theorem c4_zero_epochs_identity_witness :
    c4WArgs.nEpochs = 0 ∧ c4WArgs.outputConstrain.finalPt = none ∧
      optimize_layout_euclidean c4WArgs = Except.ok [[1]] ∧
      ([[1]] : List (List ℚ)) = c4WArgs.headEmbedding :=
  ⟨rfl, rfl, by with_unfolding_all rfl,
    c4_zero_epochs_identity c4WArgs rfl rfl [[1]]
      (by with_unfolding_all rfl)⟩

/-- C8: the per-epoch hook block (lines 1380-1381) tests
`outconstrain_epoch_pt` but calls `outconstrain_final_pt`.  With an
`epoch_pt` hook registered and no `final_pt`, the first epoch calls
`None` and the run aborts with `TypeError` — the registered `epoch_pt`
function is never invoked once per epoch as claimed.  With both
registered, the run completes but it is the `final_pt` function that is
applied after each epoch (and once more at the end): starting from
`[[0]]` with `epoch_pt = const [[1]]` and `final_pt = const [[2]]`, the
result is `[[2]]`, untouched by the `epoch_pt` function. -/
theorem c8_epoch_pt_miswired :
    optimize_layout_euclidean c8Args =
      Except.error (PyError.typeError "NoneType object is not callable") ∧
    optimize_layout_euclidean c8BothArgs = Except.ok [[2]] := by
  refine ⟨by with_unfolding_all rfl, by with_unfolding_all rfl⟩

/-- C9: a pin-mask array whose shape is neither 1-D matching the point
count nor 2-D matching the embedding shape makes
`optimize_layout_euclidean` raise during the constraint-setup phase
(asserts at lines 1158 and 1175, `ValueError` at line 1213), which runs
before the epoch loop: the driver returns the raised error and never
produces (or mutates) an embedding. -/
theorem c9_bad_pin_mask_shape_fatal (A : EucDriverArgs) :
    (∀ mask : List ℚ, A.pinMask = .array1d mask →
      mask.length ≠ A.headEmbedding.length →
      optimize_layout_euclidean A = Except.error PyError.assertionError) ∧
    (∀ mask : List (List ℚ), A.pinMask = .array2d mask →
      ¬ (mask.length = A.headEmbedding.length ∧
        mask.map List.length = A.headEmbedding.map List.length) →
      optimize_layout_euclidean A = Except.error PyError.assertionError) ∧
    (∀ ndim : ℕ, A.pinMask = .arrayNd ndim →
      optimize_layout_euclidean A =
        Except.error (PyError.valueError
          "pin_mask data_constrain must be a 1 or 2-dim array")) := by
  refine ⟨?_, ?_, ?_⟩
  · intro mask hm hbad
    unfold optimize_layout_euclidean
    rw [hm]
    unfold processPinMask
    dsimp only
    rw [if_neg hbad]
  · intro mask hm hbad
    unfold optimize_layout_euclidean
    rw [hm]
    unfold processPinMask
    dsimp only
    rw [if_neg hbad]
  · intro ndim hm
    unfold optimize_layout_euclidean
    rw [hm]
    unfold processPinMask
    dsimp only

/-- Witness for C9 at concrete malformed masks: a length-2 1-D mask
against a 1-point embedding, a 2-D mask of the wrong shape, and a rank-3
mask. -/
theorem c9_bad_pin_mask_shape_fatal_witness :
    (([0, 0] : List ℚ).length ≠
        ([[1]] : List (List ℚ)).length ∧
      optimize_layout_euclidean
        { headEmbedding := [[1]], head := [], tail := [], nEpochs := 1,
          nVertices := 1, eps := [], a := 1, b := 1,
          pinMask := .array1d [0, 0] } =
        Except.error PyError.assertionError) ∧
    optimize_layout_euclidean
        { headEmbedding := [[1]], head := [], tail := [], nEpochs := 1,
          nVertices := 1, eps := [], a := 1, b := 1,
          pinMask := .array2d [[0], [0]] } =
      Except.error PyError.assertionError ∧
    optimize_layout_euclidean
        { headEmbedding := [[1]], head := [], tail := [], nEpochs := 1,
          nVertices := 1, eps := [], a := 1, b := 1,
          pinMask := .arrayNd 3 } =
      Except.error (PyError.valueError
        "pin_mask data_constrain must be a 1 or 2-dim array") := by
  refine ⟨⟨by decide, ?_⟩, ?_, ?_⟩
  · exact (c9_bad_pin_mask_shape_fatal _).1 [0, 0] rfl (by decide)
  · exact (c9_bad_pin_mask_shape_fatal _).2.1 [[0], [0]] rfl
      (by with_unfolding_all decide)
  · exact (c9_bad_pin_mask_shape_fatal _).2.2 3 rfl

/-- C10: an unrecognized constraints-dictionary key does not produce the
documented non-fatal warning: after printing the warning line, the
handler evaluates the undefined name `recognized` (line 1151) and the
run aborts with `NameError` before any epoch executes — the run does not
complete. -/
theorem c10_unrecognized_key_raises :
    optimize_layout_euclidean c10Args =
      Except.error (PyError.nameError "recognized") := by
  with_unfolding_all rfl

theorem clip_zero : clip 0 = 0 := by
  norm_num [clip]

theorem map_zero_getD (g : List ℚ) (d : ℕ) :
    (g.map (fun _ => (0 : ℚ))).getD d 0 = 0 := by
  induction g generalizing d with
  | nil => simp [List.getD]
  | cons a t ih =>
    cases d with
    | zero => simp
    | succ d2 => simpa using ih d2

theorem eset_eget_cancel (e : List (List ℚ)) (j d : ℕ) :
    eset e j d (eget e j d) = e := by
  unfold eset eget
  rw [set_getD_cancel, set_getD_cancel]

theorem foldl_congr_id {σ : Type} (f : σ → ℕ → σ) (l : List ℕ) (s : σ)
    (h : ∀ s2 x, f s2 x = s2) : l.foldl f s = s := by
  induction l generalizing s with
  | nil => rfl
  | cons a t ih =>
    rw [List.foldl_cons, h s a]
    exact ih s

theorem applyClipGrad_zero (dim : ℕ) (alpha : ℚ) (e : List (List ℚ))
    (j : ℕ) (g : List ℚ) (hg : ∀ d, g.getD d 0 = 0) :
    applyClipGrad dim alpha e j g = e := by
  unfold applyClipGrad
  refine foldl_congr_id _ _ _ ?_
  intro e2 d
  rw [hg d, clip_zero, mul_zero, add_zero, eset_eget_cancel]

theorem applyClipGrad2_zero (dim : ℕ) (alpha : ℚ) (e : List (List ℚ))
    (j : ℕ) (g : List ℚ) (k : ℕ) (og : List ℚ)
    (hg : ∀ d, g.getD d 0 = 0) (hog : ∀ d, og.getD d 0 = 0) :
    applyClipGrad2 dim alpha e j g k og = e := by
  unfold applyClipGrad2
  refine foldl_congr_id _ _ _ ?_
  intro e2 d
  dsimp only
  rw [hg d, clip_zero, mul_zero, add_zero, eset_eget_cancel,
    hog d, clip_zero, mul_zero, add_zero, eset_eget_cancel]

theorem applyClipGrad2_row_zero_left (dim : ℕ) (alpha : ℚ)
    (e : List (List ℚ)) (j : ℕ) (g : List ℚ) (k : ℕ) (og : List ℚ)
    (hg : ∀ d, g.getD d 0 = 0) (hk : k ≠ j) :
    (applyClipGrad2 dim alpha e j g k og).getD j [] = e.getD j [] := by
  unfold applyClipGrad2
  refine foldl_row_invariant j _ ?_ (List.range dim) e
  intro e2 d
  dsimp only
  rw [hg d, clip_zero, mul_zero, add_zero, eset_eget_cancel]
  exact eset_row_ne e2 k d _ j hk

theorem applyClipGrad2_row_zero_right (dim : ℕ) (alpha : ℚ)
    (e : List (List ℚ)) (j : ℕ) (g : List ℚ) (k : ℕ) (og : List ℚ)
    (hog : ∀ d, og.getD d 0 = 0) (hj : j ≠ k) :
    (applyClipGrad2 dim alpha e j g k og).getD k [] = e.getD k [] := by
  unfold applyClipGrad2
  refine foldl_row_invariant k _ ?_ (List.range dim) e
  intro e2 d
  dsimp only
  rw [hog d, clip_zero, mul_zero, add_zero, eset_eget_cancel]
  exact eset_row_ne e2 j d _ k hj

theorem applyClipGrad2_row_ne (dim : ℕ) (alpha : ℚ) (e : List (List ℚ))
    (j : ℕ) (g : List ℚ) (k : ℕ) (og : List ℚ) (q : ℕ)
    (hj : j ≠ q) (hk : k ≠ q) :
    (applyClipGrad2 dim alpha e j g k og).getD q [] = e.getD q [] := by
  unfold applyClipGrad2
  refine foldl_row_invariant q _ ?_ (List.range dim) e
  intro e2 d
  dsimp only
  rw [eset_row_ne _ k d _ q hk, eset_row_ne e2 j d _ q hj]

theorem gradMods_pinHooks (F : List ℕ) : gradMods (pinHooks F) = true := rfl

theorem applyIdxGrad_pinHooks (F : List ℕ) (j : ℕ) (pt g : List ℚ) :
    applyIdxGrad (pinHooks F) j pt g = pinindexed_grad F j pt g := rfl

theorem applyGradHook_pinHooks (F : List ℕ) (pt g : List ℚ) :
    applyGradHook (pinHooks F) pt g = g := rfl

theorem applyIdxPt_pinHooks (F : List ℕ) (e : List (List ℚ)) (j : ℕ) :
    applyIdxPt (pinHooks F) e j = e := rfl

theorem applyPtHook_pinHooks (F : List ℕ) (e : List (List ℚ)) (j : ℕ) :
    applyPtHook (pinHooks F) e j = e := rfl

theorem pinindexed_grad_pinned (F : List ℕ) (idx : ℕ) (pt g : List ℚ)
    (h : idx ∈ F) : pinindexed_grad F idx pt g = g.map (fun _ => 0) := by
  unfold pinindexed_grad
  rw [if_pos h]

theorem attractiveUpd_row_pinned (P : EucKernelArgs) (alpha : ℚ) (i : ℕ)
    (e : List (List ℚ)) (F : List ℕ) (p : ℕ)
    (hH : P.hooks = pinHooks F) (hpF : p ∈ F) :
    (attractiveUpd P alpha i e).getD p [] = e.getD p [] := by
  unfold attractiveUpd
  dsimp only
  rw [hH]
  simp only [gradMods_pinHooks, applyIdxGrad_pinHooks, applyGradHook_pinHooks,
    applyIdxPt_pinHooks, applyPtHook_pinHooks, if_true]
  split
  · by_cases hjp : P.head.getD i 0 = p
    · rw [hjp, pinindexed_grad_pinned F p _ _ hpF]
      by_cases hkp : P.tail.getD i 0 = p
      · rw [hkp, pinindexed_grad_pinned F p _ _ hpF]
        rw [applyClipGrad2_zero _ _ _ _ _ _ _ (map_zero_getD _) (map_zero_getD _)]
      · rw [applyClipGrad2_row_zero_left _ _ _ _ _ _ _ (map_zero_getD _) hkp]
    · by_cases hkp : P.tail.getD i 0 = p
      · rw [hkp, pinindexed_grad_pinned F p _ _ hpF]
        rw [applyClipGrad2_row_zero_right _ _ _ _ _ _ _ (map_zero_getD _) hjp]
      · rw [applyClipGrad2_row_ne _ _ _ _ _ _ _ _ hjp hkp]
  · by_cases hjp : P.head.getD i 0 = p
    · rw [hjp, pinindexed_grad_pinned F p _ _ hpF]
      rw [applyClipGrad_zero _ _ _ _ _ (map_zero_getD _)]
    · rw [applyClipGrad_row_ne _ _ _ _ _ _ hjp]

theorem negApply_pinned (P : EucKernelArgs) (alpha : ℚ) (j kp : ℕ)
    (gc : ℚ) (e : List (List ℚ)) (F : List ℕ)
    (hH : P.hooks = pinHooks F) (hjF : j ∈ F) :
    negApply P alpha j kp gc e = e := by
  unfold negApply
  dsimp only
  rw [hH]
  simp only [gradMods_pinHooks, applyIdxGrad_pinHooks, applyGradHook_pinHooks,
    applyIdxPt_pinHooks, applyPtHook_pinHooks, if_true]
  rw [pinindexed_grad_pinned F j _ _ hjF]
  exact applyClipGrad_zero _ _ _ _ _ (map_zero_getD _)

theorem negSampleUpd_row_pinned (P : EucKernelArgs) (alpha : ℚ)
    (j kp : ℕ) (e : List (List ℚ)) (F : List ℕ) (p : ℕ)
    (hH : P.hooks = pinHooks F) (hpF : p ∈ F) :
    (negSampleUpd P alpha j kp e).getD p [] = e.getD p [] := by
  by_cases hjp : j = p
  · subst hjp
    unfold negSampleUpd
    dsimp only
    split
    · rw [negApply_pinned P alpha j kp _ e F hH hpF]
    · split
      · rfl
      · rw [negApply_pinned P alpha j kp 0 e F hH hpF]
  · unfold negSampleUpd
    dsimp only
    split
    · exact negApply_row_ne P alpha j kp _ e p hjp
    · split
      · rfl
      · exact negApply_row_ne P alpha j kp 0 e p hjp

theorem foldl_pair_row_invariant (p : ℕ)
    (F2 : (List (List ℚ) × ℕ) → ℕ → (List (List ℚ) × ℕ))
    (hF : ∀ er x, ((F2 er x).1).getD p [] = (er.1).getD p []) (l : List ℕ)
    (er : List (List ℚ) × ℕ) :
    ((l.foldl F2 er).1).getD p [] = (er.1).getD p [] := by
  induction l generalizing er with
  | nil => rfl
  | cons a t ih => rw [List.foldl_cons, ih (F2 er a), hF er a]

theorem negLoop_row_pinned (P : EucKernelArgs) (alpha : ℚ) (j count : ℕ)
    (e : List (List ℚ)) (rng : ℕ) (F : List ℕ) (p : ℕ)
    (hH : P.hooks = pinHooks F) (hpF : p ∈ F) :
    ((negLoop P alpha j count e rng).1).getD p [] = e.getD p [] := by
  unfold negLoop
  refine foldl_pair_row_invariant p _ ?_ (List.range count) (e, rng)
  intro er x
  dsimp only
  exact negSampleUpd_row_pinned P alpha j _ er.1 F p hH hpF

theorem edgeStepSeq_emb (P : EucKernelArgs) (alpha : ℚ) (n : ℕ)
    (s : EucState) (i : ℕ) (hfire : s.eons.getD i 0 ≤ (n : ℚ)) :
    (edgeStepSeq P alpha n s i).emb =
      if pyint (((n : ℚ) - s.eonns.getD i 0) / P.epns.getD i 0) ≤ 0 then
        attractiveUpd P alpha i s.emb
      else (negLoop P alpha (P.head.getD i 0)
        (pyint (((n : ℚ) - s.eonns.getD i 0) / P.epns.getD i 0)).toNat
        (attractiveUpd P alpha i s.emb) s.rng).1 := by
  unfold edgeStepSeq
  rw [if_pos hfire]
  dsimp only
  split <;> rfl

theorem edgeStepSeq_row_pinned (P : EucKernelArgs) (alpha : ℚ) (n : ℕ)
    (s : EucState) (i : ℕ) (F : List ℕ) (p : ℕ)
    (hH : P.hooks = pinHooks F) (hpF : p ∈ F) :
    (edgeStepSeq P alpha n s i).emb.getD p [] = s.emb.getD p [] := by
  by_cases hfire : s.eons.getD i 0 ≤ (n : ℚ)
  · rw [edgeStepSeq_emb P alpha n s i hfire]
    split
    · exact attractiveUpd_row_pinned P alpha i s.emb F p hH hpF
    · rw [negLoop_row_pinned P alpha _ _ _ _ F p hH hpF]
      exact attractiveUpd_row_pinned P alpha i s.emb F p hH hpF
  · rw [edgeStepSeq_notfire P alpha n s i hfire]

theorem epoch_row_pinned (P : EucKernelArgs) (alpha : ℚ) (n : ℕ)
    (s : EucState) (F : List ℕ) (p : ℕ)
    (hH : P.hooks = pinHooks F) (hpF : p ∈ F) :
    (optimize_layout_euclidean_single_epoch P alpha n s).emb.getD p [] =
      s.emb.getD p [] := by
  unfold optimize_layout_euclidean_single_epoch
  have h : ∀ (l : List ℕ) (s2 : EucState),
      ((l.foldl (edgeStepSeq P alpha n) s2).emb).getD p [] =
        s2.emb.getD p [] := by
    intro l
    induction l with
    | nil => intro s2; rfl
    | cons a t ih =>
      intro s2
      rw [List.foldl_cons, ih (edgeStepSeq P alpha n s2 a),
        edgeStepSeq_row_pinned P alpha n s2 a F p hH hpF]
  exact h _ s

theorem euclideanKernelAsserts_self (e : List (List ℚ)) :
    euclideanKernelAsserts e e = true := by
  simp [euclideanKernelAsserts]

theorem eucDriverEpoch_seq_ok (A : EucDriverArgs)
    (hookPair :
      Option (ℕ → List ℚ → List ℚ) × Option (ℕ → List ℚ → List ℚ → List ℚ))
    (n : ℕ) (s : EucState) (hseq : A.parallel = false) :
    eucDriverEpoch A hookPair n s = Except.ok
      (optimize_layout_euclidean_single_epoch (eucEpochArgs A hookPair n s.emb)
        (alphaAt A.initialAlpha A.nEpochs n) n s) := by
  unfold eucDriverEpoch
  rw [hseq]
  simp only [Bool.false_eq_true, if_false]
  unfold opt_euclidean_checked
  rw [euclideanKernelAsserts_self]
  rfl

theorem epochPtApply_ok (oc : OutputConstrain) (h : oc.epochPt = none)
    (s : EucState) : epochPtApply oc s = Except.ok s := by
  unfold epochPtApply
  rw [h]

theorem eucDriverLoop_row_pinned (A : EucDriverArgs) (F : List ℕ) (p : ℕ)
    (hoc : A.outputConstrain = {}) (hseq : A.parallel = false) (hpF : p ∈ F) :
    ∀ (count n : ℕ) (s s2 : EucState),
      eucDriverLoop A (none, some (pinindexed_grad F)) count n s =
        Except.ok s2 →
      s2.emb.getD p [] = s.emb.getD p [] := by
  intro count
  induction count with
  | zero =>
    intro n s s2 h
    unfold eucDriverLoop at h
    cases h
    rfl
  | succ c ih =>
    intro n s s2 h
    unfold eucDriverLoop at h
    rw [eucDriverEpoch_seq_ok A (none, some (pinindexed_grad F)) n s hseq] at h
    dsimp only at h
    rw [epochPtApply_ok A.outputConstrain (by rw [hoc]) _] at h
    dsimp only at h
    have hHk : (eucEpochArgs A (none, some (pinindexed_grad F)) n s.emb).hooks =
        pinHooks F := by
      show Hooks.mk none (some (pinindexed_grad F)) A.outputConstrain.pt
        A.outputConstrain.grad = pinHooks F
      rw [hoc]
      rfl
    rw [ih (n + 1) _ s2 h]
    exact epoch_row_pinned (eucEpochArgs A (none, some (pinindexed_grad F)) n s.emb)
      (alphaAt A.initialAlpha A.nEpochs n) n s F p hHk hpF

/-- C7: in a sequential-mode run of `optimize_layout_euclidean` with a
1-D pin mask whose entry `p` is 0 (and no output constraints, the
configuration the claim describes), point `p` of the head embedding is
exactly the same after any number of epochs: the mask is compiled into a
`wrap_idx_grad` hook that zeroes the gradient at the pinned indices, and
every kernel write to row `p` — attractive, `move_other`, or negative —
goes through `pt[d] += alpha*clip(grad[d])` with the zeroed gradient.
spec-modelled: `con.pinindexed_grad` is taken from the spec, since
umap/constraints.py is not among the sources. -/
theorem c7_pinned_point_fixed (A : EucDriverArgs) (mask : List ℚ) (p : ℕ)
    (hmask : A.pinMask = .array1d mask) (hseq : A.parallel = false)
    (hoc : A.outputConstrain = {})
    (hp0 : mask.getD p 0 = 0) (hplen : p < mask.length)
    (r : List (List ℚ)) (hr : optimize_layout_euclidean A = Except.ok r) :
    r.getD p [] = A.headEmbedding.getD p [] := by
  have hpF : p ∈ (List.range mask.length).filter
      (fun i => decide (mask.getD i 0 = 0)) := by
    refine List.mem_filter.mpr ⟨List.mem_range.mpr hplen, ?_⟩
    rw [hp0]
    simp
  unfold optimize_layout_euclidean at hr
  rw [hmask] at hr
  unfold processPinMask at hr
  dsimp only at hr
  by_cases hlen : mask.length = A.headEmbedding.length
  · rw [if_pos hlen] at hr
    dsimp only at hr
    rcases hloop : eucDriverLoop A
        (none, some (pinindexed_grad ((List.range mask.length).filter
          (fun i => decide (mask.getD i 0 = 0))))) A.nEpochs 0
        { emb := A.headEmbedding, eons := A.eps,
          eonns := A.eps.map (fun x => x / A.negativeSampleRate), rng := 0 }
      with e | sf
    · rw [hloop] at hr
      cases hr
    · rw [hloop] at hr
      rw [hoc] at hr
      dsimp only at hr
      cases hr
      exact eucDriverLoop_row_pinned A _ p hoc hseq hpF A.nEpochs 0 _ sf hloop
  · rw [if_neg hlen] at hr
    cases hr

/-- Witness for C7 at a concrete one-epoch sequential run pinning point
0 with the mask `[0, 1]`. -/
theorem c7_pinned_point_fixed_witness :
    c7Args.pinMask = PinMask.array1d [0, 1] ∧ c7Args.parallel = false ∧
      c7Args.outputConstrain = {} ∧ ([0, (1 : ℚ)].getD 0 0 = 0) ∧
      0 < ([0, (1 : ℚ)] : List ℚ).length ∧
      optimize_layout_euclidean c7Args = Except.ok [[0], [5]] ∧
      ([[0], [5]] : List (List ℚ)).getD 0 [] =
        c7Args.headEmbedding.getD 0 [] := by
  refine ⟨rfl, rfl, rfl, by with_unfolding_all decide, by decide,
    by with_unfolding_all rfl, ?_⟩
  exact c7_pinned_point_fixed c7Args [0, 1] 0 rfl rfl rfl
    (by with_unfolding_all decide) (by decide) [[0], [5]]
    (by with_unfolding_all rfl)

end UmapLayouts
